import Mathlib

/-!
Verification development for the Bluesky Times generator
(src/bluesky_times/generator.py).  The pipeline's post records are Python
dicts mutated in place across stages; here they are embedded as immutable
values, with each stage a pure function returning the updated structure.
External collaborators (network fetches, the LLM summarizer/classifier) are
passed in as function parameters, following the collaborator contracts the
code calls into (client.get_post_thread, fetch_single_post,
summarize_thread).  Timestamps are ISO strings; a missing created_at is
modelled as Option String, and sort keys use getD "" mirroring the
source's `x['created_at'] or ''` key.  Python string comparison is
lexicographic by code point, embedded below as charsLt on the character
lists; Python's stable list.sort is embedded as a stable insertion sort.
-/

namespace BlueskyTimes

/-- Python truthiness of an optional string: None and the empty string are falsy. -/
def truthy : Option String → Bool
  | none => false
  | some s => !(s == "")

/-- Python `a or b` on a display-name string: falsy (None or empty) falls back. -/
def orStr : Option String → String → String
  | none, b => b
  | some a, b => if a == "" then b else a

/-- Lexicographic strict order on character lists by code point (Python string `<`). -/
def charsLt : List Char → List Char → Bool
  | [], [] => false
  | [], _ :: _ => true
  | _ :: _, [] => false
  | a :: as, b :: bs =>
    if a.val < b.val then true
    else if b.val < a.val then false
    else charsLt as bs

/-- Python string `<=`, via the strict order. -/
def pyLe (a b : String) : Bool := !(charsLt b.data a.data)

/-- Python substring membership `needle in hay`, on character lists: prefix test. -/
def charsIsPrefixOf : List Char → List Char → Bool
  | [], _ => true
  | _ :: _, [] => false
  | a :: as, b :: bs => a == b && charsIsPrefixOf as bs

/-- Python substring membership `needle in hay`, on character lists. -/
def charsContains (needle : List Char) : List Char → Bool
  | [] => charsIsPrefixOf needle []
  | b :: bs => charsIsPrefixOf needle (b :: bs) || charsContains needle bs

/-- Python `needle in hay` for strings. -/
def pyIn (needle hay : String) : Bool := charsContains needle.data hay.data

/-- Python str.lower, character by character. -/
def lowerStr (s : String) : String := ⟨s.data.map Char.toLower⟩

/-- Stable ordered insert for the insertion sort: an element goes before the
first strictly larger key, hence after existing equal keys seen so far. -/
def insOn {α : Type} (key : α → String) (x : α) : List α → List α
  | [] => [x]
  | y :: ys => if pyLe (key x) (key y) then x :: y :: ys else y :: insOn key x ys

/-- Stable ascending sort by a string key, modelling Python's `list.sort(key=...)`. -/
def sortOn {α : Type} (key : α → String) : List α → List α
  | [] => []
  | x :: xs => insOn key x (sortOn key xs)

/-- Replace the element at an index, leaving the list unchanged when out of range
(models in-place mutation of `lst[i]`). -/
def modifyIdx {α : Type} (f : α → α) : Nat → List α → List α
  | _, [] => []
  | 0, x :: xs => f x :: xs
  | n + 1, x :: xs => x :: modifyIdx f n xs

/-- Image entry of a normalized post, as built by extract_post_data. -/
structure Image where
  alt : String
  thumb : Option String
  fullsize : Option String
  deriving Repr, DecidableEq

/-- Denormalized snapshot of a quoted post (quote_post field). -/
structure QuoteData where
  author_handle : String
  author_name : String
  text : String
  images : List Image
  deriving Repr, DecidableEq

/-- External link card (external_link field). -/
structure ExtLink where
  uri : String
  title : String
  description : String
  deriving Repr, DecidableEq

/-- Result dict of fetch_single_post (an external collaborator call). -/
structure SingleFetch where
  author_handle : String
  author_name : String
  text : String
  uri : String
  deriving Repr, DecidableEq

/-- Entry of a context chain as produced by fetch_thread_context or the
thread-context walkers: a parent post dict, a fetched root (is_root), or a
synthetic gap marker (is_gap, no uri).  Keys a given dict lacks are read with
.get in the source, so they are Options or carry the source's defaults. -/
structure CtxPost where
  author_handle : String
  author_name : String
  text : String
  created_at : Option String
  uri : Option String
  is_gap : Bool
  is_root : Bool
  deriving Repr, DecidableEq

/-- Value of the reply_context annotation: the three variants the source attaches. -/
inductive ReplyContext where
  | full (posts : List CtxPost)
  | summary (text : String) (post_count : Nat)
  | continued (posts : List CtxPost)
  deriving Repr, DecidableEq

/-- Non-recursive part of a normalized post dict: every key extract_post_data
creates, plus the annotation keys later stages add (reply_context,
thread_continues, immediate_parent).  Absent dict keys are none / [] / false. -/
structure PostCore where
  uri : String
  cid : String
  author_handle : String
  author_name : String
  author_avatar : Option String
  text : String
  created_at : Option String
  like_count : Nat
  repost_count : Nat
  reply_count : Nat
  is_repost : Bool
  reposted_by : Option String
  reply_parent : Option String
  reply_root : Option String
  quote_post : Option QuoteData
  images : List Image
  external_link : Option ExtLink
  reply_context : Option ReplyContext
  thread_continues : Option Nat
  immediate_parent : Option SingleFetch
  deriving Repr, DecidableEq

/-- Normalized post dict.  The thread_replies key added by the consolidator
holds further post dicts, making the type recursive; an absent key is []. -/
inductive Post where
  | mk (core : PostCore) (thread_replies : List Post)
  deriving Repr

def Post.core : Post → PostCore
  | .mk c _ => c

def Post.thread_replies : Post → List Post
  | .mk _ t => t

def Post.uri (p : Post) : String := p.core.uri

def Post.author_handle (p : Post) : String := p.core.author_handle

def Post.created_at (p : Post) : Option String := p.core.created_at

def Post.reply_parent (p : Post) : Option String := p.core.reply_parent

def Post.reply_root (p : Post) : Option String := p.core.reply_root

def Post.reply_context (p : Post) : Option ReplyContext := p.core.reply_context

def Post.images (p : Post) : List Image := p.core.images

def Post.quote_post (p : Post) : Option QuoteData := p.core.quote_post

/-- Write the reply_context key. -/
def Post.withContext (p : Post) (c : Option ReplyContext) : Post :=
  .mk { p.core with reply_context := c } p.thread_replies

/-- Write the thread_continues key. -/
def Post.withThreadContinues (p : Post) (n : Option Nat) : Post :=
  .mk { p.core with thread_continues := n } p.thread_replies

/-- Write the immediate_parent key. -/
def Post.withImmediateParent (p : Post) (d : Option SingleFetch) : Post :=
  .mk { p.core with immediate_parent := d } p.thread_replies

/-- Write the thread_replies key. -/
def Post.withThreadReplies (p : Post) (tr : List Post) : Post :=
  .mk p.core tr

/-- Thread entry type tag ('single' or 'thread'). -/
inductive ThreadType where
  | single
  | thread
  deriving Repr, DecidableEq

/-- Thread dict: a type tag and the ordered member posts. -/
structure Thread where
  type : ThreadType
  posts : List Post
  deriving Repr

/-- Lookup in posts_by_uri = the dict comprehension of generator.py line 472:
for a duplicated uri the dict keeps the last post written. -/
def postsByUri (posts : List Post) (u : String) : Option Post :=
  posts.foldl (fun acc p => if p.uri == u then some p else acc) none

/-- State threaded through the assembler loop: the seen set of consumed uris
and the accumulated thread list. -/
structure OrganizeState where
  seen : List String
  threads : List Thread

/-- Inner scan of organize_threads (lines 488-495): start the thread at the
root post, then pull in every not-yet-seen post of the whole batch whose
reply_root equals the root uri, in batch order. -/
def buildThreadAt (all : List Post) (rootPost : Post) (root : String)
    (seen : List String) : List Post × List String :=
  all.foldl
    (fun acc q =>
      if q.reply_root == some root && !(acc.2.contains q.uri) then
        (acc.1 ++ [q], q.uri :: acc.2)
      else acc)
    ([rootPost], root :: seen)

/-- One iteration of the organize_threads loop body (lines 477-503). -/
def organizeStep (all : List Post) (st : OrganizeState) (post : Post) : OrganizeState :=
  if st.seen.contains post.uri then st
  else if truthy post.reply_root then
    match postsByUri all (post.reply_root.getD "") with
    | some rootPost =>
      if st.seen.contains (post.reply_root.getD "") then st
      else
        { seen := (buildThreadAt all rootPost (post.reply_root.getD "") st.seen).2,
          threads := st.threads ++
            [⟨.thread, sortOn (fun p => p.created_at.getD "")
              (buildThreadAt all rootPost (post.reply_root.getD "") st.seen).1⟩] }
    | none =>
      { seen := post.uri :: st.seen, threads := st.threads ++ [⟨.single, [post]⟩] }
  else
    { seen := post.uri :: st.seen, threads := st.threads ++ [⟨.single, [post]⟩] }

/-- Thread Assembler, generator.py lines 470-505 (organize_threads). -/
def organize_threads (posts : List Post) : List Thread :=
  (posts.foldl (organizeStep posts) ⟨[], []⟩).threads

/-- Ordered grouping dict (insertion-ordered keys, as Python dicts are):
append an entry to its key's list, creating the key at the end if new. -/
def addEntry {β : Type} (m : List (String × List β)) (key : String) (e : β) :
    List (String × List β) :=
  match m with
  | [] => [(key, [e])]
  | (k, es) :: rest =>
    if k == key then (k, es ++ [e]) :: rest else (k, es) :: addEntry rest key e

/-- Filter of generator.py line 197: keep gap markers, drop context posts whose
uri is already present in the batch. -/
def contextFilter (all_post_uris : List String) (p : CtxPost) : Bool :=
  p.is_gap ||
    (match p.uri with
     | none => true
     | some u => !(all_post_uris.contains u))

/-- Python slice parents[-2:] when longer than 2 (line 250). -/
def lastTwoSlice (l : List CtxPost) : List CtxPost :=
  if l.length > 2 then l.drop (l.length - 2) else l

/-- Body of the per-root loop of add_reply_context_for_favorites
(lines 188-252), acting on the current posts list.  fetch_thread_context and
summarize_thread are the collaborator calls the source makes. -/
def replyContextGroupStep (fetch_thread_context : String → String → List CtxPost)
    (summarize_thread : List CtxPost → String) (all_post_uris : List String)
    (cur : List Post) (g : String × List (Nat × Post)) : List Post :=
  match g.2 with
  | [] => cur
  | (firstIdx, first_post) :: rest =>
    let parents0 := fetch_thread_context first_post.uri g.1
    let parents := parents0.filter (contextFilter all_post_uris)
    if parents.isEmpty then cur
    else if rest.isEmpty then
      -- single reply to this root (lines 203-217)
      if parents.length ≤ 4 then
        modifyIdx (fun p => p.withContext (some (.full parents))) firstIdx cur
      else
        modifyIdx
          (fun p => p.withContext
            (some (.summary (summarize_thread parents) parents.length)))
          firstIdx cur
    else
      -- multiple replies to the same root (lines 218-252)
      let group := sortOn (fun (e : Nat × Post) => e.2.created_at.getD "")
        ((firstIdx, first_post) :: rest)
      (group.enum).foldl
        (fun cur2 je =>
          let idx := je.2.1
          let post := je.2.2
          if je.1 == 0 then
            let ctx :=
              if parents.length ≤ 4 then ReplyContext.full parents
              else ReplyContext.summary (summarize_thread parents) parents.length
            modifyIdx
              (fun p => (p.withContext (some ctx)).withThreadContinues
                (some (group.length - 1)))
              idx cur2
          else
            let immediate_parents := fetch_thread_context post.uri g.1
            if immediate_parents.isEmpty then cur2
            else
              modifyIdx
                (fun p => p.withContext (some (.continued (lastTwoSlice immediate_parents))))
                idx cur2)
        cur

/-- Context Hydrator pass one, generator.py lines 165-254
(add_reply_context_for_favorites): group favorite replies by reply_root,
fetch and filter each root's ancestor chain once, and attach full / summary /
continued contexts.  In-place dict mutation is modelled by rebuilding the
posts list index by index. -/
def add_reply_context_for_favorites (FAVORITE_ACCOUNTS : List String)
    (fetch_thread_context : String → String → List CtxPost)
    (summarize_thread : List CtxPost → String)
    (posts : List Post) : List Post :=
  let all_post_uris := posts.map Post.uri
  let replies_by_root : List (String × List (Nat × Post)) :=
    posts.enum.foldl
      (fun m ip =>
        if FAVORITE_ACCOUNTS.contains ip.2.author_handle && truthy ip.2.reply_root then
          addEntry m (ip.2.reply_root.getD "") ip
        else m)
      []
  replies_by_root.foldl
    (replyContextGroupStep fetch_thread_context summarize_thread all_post_uris)
    posts

/-- Profile-and-text node of a get_post_thread response, as read by
add_thread_context_for_favorites (author handle, display name, record text). -/
structure ApiNode where
  handle : String
  display_name : Option String
  text : Option String
  deriving Repr, DecidableEq

/-- Context dict built from an API node (lines 548-552 and 558-562): only the
three author/text keys are written, so the rest of the CtxPost keys are their
absent-key readings. -/
def apiNodeToCtx (a : ApiNode) : CtxPost :=
  { author_handle := a.handle
    author_name := orStr a.display_name a.handle
    text := a.text.getD ""
    created_at := none
    uri := none
    is_gap := false
    is_root := false }

/-- Context dict built from a fetch_single_post result (add_basic_reply_context
line 604 stores the fetched dict directly; it carries a uri). -/
def singleToCtx (d : SingleFetch) : CtxPost :=
  { author_handle := d.author_handle
    author_name := d.author_name
    text := d.text
    created_at := none
    uri := some d.uri
    is_gap := false
    is_root := false }

/-- External-reply scan of add_thread_context_for_favorites (lines 525-531):
favorite posts of the thread whose reply_parent lies outside the thread. -/
def externalReplies (FAVORITE_ACCOUNTS : List String) (thread_uris : List String)
    (posts : List Post) : List (Post × String) :=
  posts.foldl
    (fun acc p =>
      if FAVORITE_ACCOUNTS.contains p.author_handle then
        match p.reply_parent with
        | some parent =>
          if !(parent == "") && !(thread_uris.contains parent) then acc ++ [(p, parent)]
          else acc
        | none => acc
      else acc)
    []

/-- Attach a context to the first post matching the external-reply condition
(the source mutates the first element of external_replies, which is the first
such post of the thread in order). -/
def setContextOnFirstExternal (FAVORITE_ACCOUNTS : List String)
    (thread_uris : List String) (ctx : ReplyContext) : List Post → List Post
  | [] => []
  | p :: ps =>
    if FAVORITE_ACCOUNTS.contains p.author_handle &&
        truthy p.reply_parent && !(thread_uris.contains (p.reply_parent.getD "")) then
      p.withContext (some ctx) :: ps
    else p :: setContextOnFirstExternal FAVORITE_ACCOUNTS thread_uris ctx ps

/-- Context Hydrator pass two, generator.py lines 507-585
(add_thread_context_for_favorites).  fetch_parent_chain models
client.get_post_thread(parent_uri, parent_height=5) as the resolvable node
chain starting at the immediate parent and walking upward; none models the
call raising (silently skipped, line 581).  The source appends the immediate
parent and then prepends ancestors while the list is shorter than 4, which is
the reversed 4-prefix of that chain. -/
def add_thread_context_for_favorites (FAVORITE_ACCOUNTS : List String)
    (fetch_parent_chain : String → Option (List ApiNode))
    (summarize_thread : List CtxPost → String)
    (threads : List Thread) : List Thread :=
  threads.map (fun thread =>
    if !(thread.type == .thread) || thread.posts.length ≤ 1 then thread
    else if !(thread.posts.any (fun p => FAVORITE_ACCOUNTS.contains p.author_handle)) then
      thread
    else
      match externalReplies FAVORITE_ACCOUNTS (thread.posts.map Post.uri) thread.posts with
      | [] => thread
      | (_, parent_uri) :: _ =>
        match fetch_parent_chain parent_uri with
        | none => thread
        | some ups =>
          if (((ups.take 4).reverse).map apiNodeToCtx).isEmpty then thread
          else
            { thread with
              posts := setContextOnFirstExternal FAVORITE_ACCOUNTS
                (thread.posts.map Post.uri)
                (if (externalReplies FAVORITE_ACCOUNTS (thread.posts.map Post.uri)
                      thread.posts).length > 3 then
                  ReplyContext.summary
                    (summarize_thread (((ups.take 4).reverse).map apiNodeToCtx))
                    (((ups.take 4).reverse).map apiNodeToCtx).length
                else ReplyContext.full (((ups.take 4).reverse).map apiNodeToCtx))
                thread.posts })

/-- Context Hydrator pass three, generator.py lines 587-610
(add_basic_reply_context): for every reply post that still lacks a
reply_context, fetch its immediate parent and attach it as a one-post full
context; a failed fetch (none) is skipped. -/
def add_basic_reply_context (fetch_single_post : String → Option SingleFetch)
    (threads : List Thread) : List Thread :=
  threads.map (fun t =>
    { t with
      posts := t.posts.map (fun post =>
        if post.reply_context.isSome || !(truthy post.reply_parent) then post
        else
          match fetch_single_post (post.reply_parent.getD "") with
          | some d => post.withContext (some (.full [singleToCtx d]))
          | none => post) })

/-- Grouping pass of consolidate_thread_participations (lines 268-280):
roots_to_threads maps each reply_root to the (thread index, post) pairs of
favorite reply posts, in thread-then-post order, keys in insertion order. -/
def rootsToThreads (FAVORITE_ACCOUNTS : List String) (threads : List Thread) :
    List (String × List (Nat × Post)) :=
  threads.enum.foldl
    (fun m it =>
      it.2.posts.foldl
        (fun m p =>
          if FAVORITE_ACCOUNTS.contains p.author_handle && truthy p.reply_root then
            addEntry m (p.reply_root.getD "") (it.1, p)
          else m)
        m)
    []

/-- Nat-keyed variant of the insertion-ordered grouping dict, extending an
existing key's list (consolidations[first_idx].extend(additional_posts)). -/
def addEntryNat (m : List (Nat × List Post)) (key : Nat) (es : List Post) :
    List (Nat × List Post) :=
  match m with
  | [] => [(key, es)]
  | (k, old) :: rest =>
    if k == key then (k, old ++ es) :: rest else (k, old) :: addEntryNat rest key es

/-- One iteration of the scan of lines 286-306, for a single root's entry
group: with more than one entry, sort the entries chronologically, keep the
first thread, and schedule every other entry's thread for removal while
collecting its post as an additional reply for the first thread. -/
def scanStep (st : List Nat × List (Nat × List Post)) (g : String × List (Nat × Post)) :
    List Nat × List (Nat × List Post) :=
  if g.2.length ≤ 1 then st
  else
    match sortOn (fun (e : Nat × Post) => e.2.created_at.getD "") g.2 with
    | [] => st
    | first :: tail =>
      if (tail.filter (fun e => !(e.1 == first.1))).isEmpty then
        (st.1 ++ (tail.filter (fun e => !(e.1 == first.1))).map (fun e => e.1), st.2)
      else
        (st.1 ++ (tail.filter (fun e => !(e.1 == first.1))).map (fun e => e.1),
          addEntryNat st.2 first.1
            ((tail.filter (fun e => !(e.1 == first.1))).map (fun e => e.2)))

/-- Scan of lines 286-306 over all root groups: returns
(threads_to_remove, consolidations). -/
def consolidationScan (groups : List (String × List (Nat × Post))) :
    List Nat × List (Nat × List Post) :=
  groups.foldl scanStep ([], [])

/-- Annotation of lines 313-322: for an additional reply whose parent is not
in the batch, try fetching the parent post for display continuity;
failure (none) leaves the reply unannotated. -/
def annotateReply (fetch_single_post : String → Option SingleFetch)
    (all_uris : List String) (reply : Post) : Post :=
  match reply.reply_parent with
  | some parent_uri =>
    if !(parent_uri == "") && !(all_uris.contains parent_uri) then
      match fetch_single_post parent_uri with
      | some d => reply.withImmediateParent (some d)
      | none => reply
    else reply
  | none => reply

/-- Application of lines 324-328: store the additional replies on the first
favorite reply post of the kept thread. -/
def setThreadRepliesOnFirstFav (FAVORITE_ACCOUNTS : List String)
    (additional : List Post) : List Post → List Post
  | [] => []
  | p :: ps =>
    if FAVORITE_ACCOUNTS.contains p.author_handle && truthy p.reply_root then
      p.withThreadReplies additional :: ps
    else p :: setThreadRepliesOnFirstFav FAVORITE_ACCOUNTS additional ps

/-- Application of one consolidation entry (lines 310-328): annotate the
additional replies with their fetched immediate parents and store them on the
first favorite reply post of the kept thread. -/
def applyStep (FAVORITE_ACCOUNTS : List String)
    (fetch_single_post : String → Option SingleFetch) (all_uris : List String)
    (ths : List Thread) (c : Nat × List Post) : List Thread :=
  modifyIdx
    (fun t => { t with
      posts := setThreadRepliesOnFirstFav FAVORITE_ACCOUNTS
        (c.2.map (annotateReply fetch_single_post all_uris)) t.posts })
    c.1 ths

/-- Thread Consolidator, generator.py lines 256-336
(consolidate_thread_participations).  fetch_single_post is the collaborator
used for the optional immediate-parent annotation. -/
def consolidate_thread_participations (FAVORITE_ACCOUNTS : List String)
    (fetch_single_post : String → Option SingleFetch)
    (threads : List Thread) : List Thread :=
  if (consolidationScan (rootsToThreads FAVORITE_ACCOUNTS threads)).1.isEmpty then
    (consolidationScan (rootsToThreads FAVORITE_ACCOUNTS threads)).2.foldl
      (applyStep FAVORITE_ACCOUNTS fetch_single_post
        (threads.flatMap (fun t => t.posts.map Post.uri)))
      threads
  else
    ((((consolidationScan (rootsToThreads FAVORITE_ACCOUNTS threads)).2.foldl
        (applyStep FAVORITE_ACCOUNTS fetch_single_post
          (threads.flatMap (fun t => t.posts.map Post.uri)))
        threads).enum.filter
      (fun it => !((consolidationScan (rootsToThreads FAVORITE_ACCOUNTS threads)).1.contains
        it.1))).map (fun it => it.2))

/-- Theme produced by the classifier collaborator (identify_themes). -/
structure Theme where
  id : String
  title : String
  description : String
  deriving Repr, DecidableEq

/-- Section dict of organize_by_theme.  The is_voices_section key exists only
on the voices section in the source; an absent key is false. -/
structure Section where
  title : String
  description : String
  threads : List Thread
  favorite_count : Nat
  is_voices_section : Bool

/-- Sort key of organize_by_theme (get_thread_time, lines 956-958): the
minimum truthy created_at of the thread's posts, or the empty string. -/
def getThreadTime (t : Thread) : String :=
  let times := (t.posts.map (fun p => p.created_at.getD "")).filter (fun s => !(s == ""))
  match times with
  | [] => ""
  | x :: xs => xs.foldl (fun a b => if pyLe a b then a else b) x

/-- Partition of a list of thread indices into favorite-containing and other
threads, keeping order (lines 941-953 and 980-989). -/
def splitFavorites (FAVORITE_ACCOUNTS : List String) (threads : List Thread)
    (indices : List Nat) : List Thread × List Thread :=
  indices.foldl
    (fun fo idx =>
      let thread := threads.getD idx ⟨.single, []⟩
      if thread.posts.any (fun p => FAVORITE_ACCOUNTS.contains p.author_handle) then
        (fo.1 ++ [thread], fo.2)
      else (fo.1, fo.2 ++ [thread]))
    ([], [])

/-- Theme-section step of organize_by_theme (lines 928-969): indices
classified to this theme, split into favorite and other threads, each group
sorted chronologically, favorites first; an empty theme emits nothing. -/
def themeSectionStep (FAVORITE_ACCOUNTS : List String) (threads : List Thread)
    (classifications : List (Nat × String)) (acc : List Section) (theme : Theme) :
    List Section :=
  let theme_indices :=
    (classifications.filter (fun c => c.2 == theme.id && c.1 < threads.length)).map
      (fun c => c.1)
  if theme_indices.isEmpty then acc
  else
    let fo := splitFavorites FAVORITE_ACCOUNTS threads theme_indices
    acc ++ [{ title := theme.title
              description := theme.description
              threads := sortOn getThreadTime fo.1 ++ sortOn getThreadTime fo.2
              favorite_count := fo.1.length
              is_voices_section := false }]

/-- Section Organizer, generator.py lines 919-1017 (organize_by_theme).
classifications is the thread-index-to-theme-id dict from the classifier
collaborator, as an insertion-ordered association list. -/
def organize_by_theme (FAVORITE_ACCOUNTS : List String) (threads : List Thread)
    (themes : List Theme) (classifications : List (Nat × String)) : List Section :=
  let themeSections := themes.foldl
    (themeSectionStep FAVORITE_ACCOUNTS threads classifications) []
  let misc_indices :=
    (classifications.filter (fun c => c.2 == ("misc") && c.1 < threads.length)).map
      (fun c => c.1)
  let fm := splitFavorites FAVORITE_ACCOUNTS threads misc_indices
  let withVoices :=
    if fm.1.isEmpty then themeSections
    else themeSections ++
      [{ title := ("From Voices I Follow")
         description := ""
         threads := sortOn getThreadTime fm.1
         favorite_count := fm.1.length
         is_voices_section := true }]
  if fm.2.isEmpty then withVoices
  else withVoices ++
    [{ title := ("Also Today")
       description := ""
       threads := sortOn getThreadTime fm.2
       favorite_count := 0
       is_voices_section := false }]

/-- Author object of a feed entry.  A record whose author object is absent
(blocked/deleted) makes the unguarded attribute chain post.author.handle
raise, which the embedding surfaces as an Except.error. -/
structure RawAuthor where
  handle : String
  display_name : Option String
  avatar : Option String
  deriving Repr, DecidableEq

/-- Strong ref with a uri (record.reply.parent / record.reply.root). -/
structure RawRef where
  uri : String
  deriving Repr, DecidableEq

/-- Reply object of a post record. -/
structure RawReply where
  parent : Option RawRef
  root : Option RawRef
  deriving Repr, DecidableEq

/-- Raw image reference of an embed; attributes read behind hasattr guards. -/
structure RawImage where
  alt : Option String
  thumb : Option String
  fullsize : Option String
  deriving Repr, DecidableEq

/-- Media object of a recordWithMedia embed. -/
structure RawMedia where
  images : Option (List RawImage)
  deriving Repr, DecidableEq

/-- External link object of an external embed. -/
structure RawExternal where
  uri : Option String
  title : Option String
  description : Option String
  deriving Repr, DecidableEq

/-- Value object of a quoted record view (quoted.value, with optional .text). -/
structure RawRecText where
  text : Option String
  deriving Repr, DecidableEq

/-- Embed nested inside a quoted record (quoted.embeds entries). -/
structure RawQEmbed where
  images : Option (List RawImage)
  deriving Repr, DecidableEq

/-- Quoted record object of a record/recordWithMedia embed.  An absent
attribute is none; the record attribute may nest another quoted view (the
source unrolls exactly one level), and the inner record object may carry a
plain .text used as the elif branch's fallback text. -/
inductive RawQuoted where
  | mk (value : Option RawRecText) (author : Option RawAuthor)
       (embeds : Option (List RawQEmbed)) (record : Option RawQuoted)
       (text : Option String)

def RawQuoted.value : RawQuoted → Option RawRecText
  | .mk v _ _ _ _ => v

def RawQuoted.author : RawQuoted → Option RawAuthor
  | .mk _ a _ _ _ => a

def RawQuoted.embeds : RawQuoted → Option (List RawQEmbed)
  | .mk _ _ e _ _ => e

def RawQuoted.record : RawQuoted → Option RawQuoted
  | .mk _ _ _ r _ => r

def RawQuoted.text : RawQuoted → Option String
  | .mk _ _ _ _ t => t

/-- Embed object of a feed post, with its py_type tag and the optional
attributes the source sniffs. -/
structure RawEmbed where
  py_type : String
  images : Option (List RawImage)
  media : Option RawMedia
  record : Option RawQuoted
  external : Option RawExternal

/-- Record object of a feed post. -/
structure RawRecord where
  text : Option String
  created_at : Option String
  reply : Option RawReply
  deriving Repr, DecidableEq

/-- Post object of a feed entry. -/
structure RawPost where
  uri : String
  cid : String
  author : Option RawAuthor
  record : RawRecord
  like_count : Option Nat
  repost_count : Option Nat
  reply_count : Option Nat
  embed : Option RawEmbed

/-- Repost reason of a feed entry; by_ embeds the .by attribute (a Lean
keyword), whose absence on a reasonRepost makes the source raise. -/
structure RawReason where
  py_type : String
  by_ : Option RawAuthor

/-- One raw timeline feed entry (a feed view). -/
structure FeedView where
  post : RawPost
  reason : Option RawReason

/-- Image dict built at lines 385-389 (and the identical blocks elsewhere). -/
def convRawImage (r : RawImage) : Image :=
  { alt := r.alt.getD "", thumb := r.thumb, fullsize := r.fullsize }

/-- Image extraction of lines 381-401: the images block, then the
recordWithMedia media block, appended in that order with no deduplication. -/
def embedImages (e : RawEmbed) : List Image :=
  (if pyIn ("images") (lowerStr e.py_type) then
    (match e.images with
     | some l => l.map convRawImage
     | none => [])
  else []) ++
  (if pyIn ("recordwithmedia") (lowerStr e.py_type) then
    (match e.media with
     | some m => (m.images.getD []).map convRawImage
     | none => [])
  else [])

/-- Images of a quoted record's own embeds (lines 427-436 and 446-455). -/
def quotedImages (q : RawQuoted) : List Image :=
  (q.embeds.getD []).flatMap (fun qe => (qe.images.getD []).map convRawImage)

/-- Quote extraction of lines 403-456: unroll one nested record, then either
the value-bearing branch, the direct record view branch, or no quote at all
(blocked or missing quoted record). -/
def buildQuote (quoted0 : Option RawQuoted) : Option QuoteData :=
  match quoted0 with
  | none => none
  | some q0 =>
    let q := match q0.record with
      | some inner => inner
      | none => q0
    match q.value with
    | some v =>
      some { author_handle :=
               match q.author with
               | some a => a.handle
               | none => "unknown"
             author_name :=
               match q.author with
               | some a => orStr a.display_name a.handle
               | none => "unknown"
             text := v.text.getD ""
             images := quotedImages q }
    | none =>
      match q.author with
      | some a =>
        some { author_handle := a.handle
               author_name := orStr a.display_name a.handle
               text :=
                 (q.value.bind RawRecText.text).getD
                   ((match q.record with
                     | some r => r.text
                     | none => none).getD "")
               images := quotedImages q }
      | none => none

/-- Quote block guard of line 404. -/
def embedQuote (e : RawEmbed) : Option QuoteData :=
  if pyIn ("record") (lowerStr e.py_type) then buildQuote e.record else none

/-- External link block of lines 459-466. -/
def embedExternal (e : RawEmbed) : Option ExtLink :=
  if pyIn ("external") (lowerStr e.py_type) then
    match e.external with
    | some x =>
      some { uri := x.uri.getD ""
             title := x.title.getD ""
             description := x.description.getD "" }
    | none => none
  else none

/-- Post Normalizer, generator.py lines 338-468 (extract_post_data).  The
unguarded attribute chains (post.author.handle, feed_view.reason.by) raise in
the source when the object is absent; the embedding returns Except.error
there, and every hasattr-guarded read substitutes the source's default. -/
def extract_post_data (fv : FeedView) : Except String Post :=
  match fv.post.author with
  | none => Except.error ("AttributeError: post.author")
  | some author =>
    let record := fv.post.record
    let repostInfo : Except String (Bool × Option String) :=
      match fv.reason with
      | some reason =>
        if pyIn ("reasonRepost") reason.py_type then
          match reason.by_ with
          | none => Except.error ("AttributeError: reason.by")
          | some b => Except.ok (true, some (orStr b.display_name b.handle))
        else Except.ok (false, none)
      | none => Except.ok (false, none)
    match repostInfo with
    | Except.error e => Except.error e
    | Except.ok ri =>
      Except.ok (Post.mk
        { uri := fv.post.uri
          cid := fv.post.cid
          author_handle := author.handle
          author_name := orStr author.display_name author.handle
          author_avatar := author.avatar
          text := record.text.getD ""
          created_at := record.created_at
          like_count := fv.post.like_count.getD 0
          repost_count := fv.post.repost_count.getD 0
          reply_count := fv.post.reply_count.getD 0
          is_repost := ri.1
          reposted_by := ri.2
          reply_parent := record.reply.bind (fun r => r.parent.map RawRef.uri)
          reply_root := record.reply.bind (fun r => r.root.map RawRef.uri)
          quote_post :=
            match fv.post.embed with
            | some e => embedQuote e
            | none => none
          images :=
            match fv.post.embed with
            | some e => embedImages e
            | none => []
          external_link :=
            match fv.post.embed with
            | some e => embedExternal e
            | none => none
          reply_context := none
          thread_continues := none
          immediate_parent := none }
        [])

/-- Batch normalization of generate_pdf line 2191: a plain list comprehension
with no per-entry exception handling, so the first raising entry aborts the
whole batch. -/
def processBatch (feed : List FeedView) : Except String (List Post) :=
  feed.mapM extract_post_data

/-- Own-post filter of generate_pdf lines 2193-2197. -/
def filterOwnPosts (user_handle : String) (posts : List Post) : List Post :=
  let own_posts := (posts.filter (fun p => p.author_handle == user_handle)).length
  if own_posts > 0 then posts.filter (fun p => !(p.author_handle == user_handle))
  else posts

/-! Infrastructure lemmas about the embedded primitives. -/

theorem insOn_perm {α : Type} (key : α → String) (x : α) :
    ∀ l : List α, (insOn key x l).Perm (x :: l) := by
  intro l
  induction l with
  | nil => simp [insOn]
  | cons y ys ih =>
    by_cases h : pyLe (key x) (key y) = true
    · simp [insOn, h]
    · rw [insOn, if_neg h]
      exact (List.Perm.cons y ih).trans (List.Perm.swap x y ys)

theorem sortOn_perm {α : Type} (key : α → String) :
    ∀ l : List α, (sortOn key l).Perm l := by
  intro l
  induction l with
  | nil => simp [sortOn]
  | cons x xs ih =>
    exact (insOn_perm key x (sortOn key xs)).trans (List.Perm.cons x ih)

theorem sortOn_mem {α : Type} (key : α → String) (l : List α) (a : α) :
    a ∈ sortOn key l ↔ a ∈ l :=
  (sortOn_perm key l).mem_iff

theorem sortOn_length {α : Type} (key : α → String) (l : List α) :
    (sortOn key l).length = l.length :=
  (sortOn_perm key l).length_eq

theorem modifyIdx_length {α : Type} (f : α → α) :
    ∀ (n : Nat) (l : List α), (modifyIdx f n l).length = l.length := by
  intro n l
  induction l generalizing n with
  | nil => simp [modifyIdx]
  | cons x xs ih =>
    cases n with
    | zero => simp [modifyIdx]
    | succ m => simp [modifyIdx, ih]

theorem mem_modifyIdx {α : Type} {f : α → α} :
    ∀ {n : Nat} {l : List α} {b : α}, b ∈ modifyIdx f n l →
      b ∈ l ∨ ∃ a, a ∈ l ∧ b = f a := by
  intro n l
  induction l generalizing n with
  | nil => intro b h; simp [modifyIdx] at h
  | cons x xs ih =>
    intro b h
    cases n with
    | zero =>
      simp only [modifyIdx, List.mem_cons] at h
      rcases h with h | h
      · exact Or.inr ⟨x, List.mem_cons_self x xs, h⟩
      · exact Or.inl (List.mem_cons_of_mem x h)
    | succ m =>
      simp only [modifyIdx, List.mem_cons] at h
      rcases h with h | h
      · exact Or.inl (h ▸ List.mem_cons_self x xs)
      · rcases ih h with h' | ⟨a, ha, hb⟩
        · exact Or.inl (List.mem_cons_of_mem x h')
        · exact Or.inr ⟨a, List.mem_cons_of_mem x ha, hb⟩

theorem modifyIdx_get? {α : Type} (f : α → α) :
    ∀ (n : Nat) (l : List α) (m : Nat), (modifyIdx f n l).get? m =
      if m = n then (l.get? m).map f else l.get? m := by
  intro n l
  induction l generalizing n with
  | nil => intro m; simp [modifyIdx]
  | cons x xs ih =>
    intro m
    cases n with
    | zero =>
      cases m with
      | zero => simp [modifyIdx]
      | succ k => simp [modifyIdx]
    | succ n' =>
      cases m with
      | zero => simp [modifyIdx]
      | succ k => simpa [modifyIdx] using ih n' k

@[simp] theorem Post.core_mk (c : PostCore) (t : List Post) : (Post.mk c t).core = c := rfl

@[simp] theorem Post.thread_replies_mk (c : PostCore) (t : List Post) :
    (Post.mk c t).thread_replies = t := rfl

@[simp] theorem Post.withContext_core (p : Post) (c : Option ReplyContext) :
    (p.withContext c).core = { p.core with reply_context := c } := by
  cases p; rfl

@[simp] theorem Post.withContext_thread_replies (p : Post) (c : Option ReplyContext) :
    (p.withContext c).thread_replies = p.thread_replies := by
  cases p; rfl

@[simp] theorem Post.withThreadContinues_core (p : Post) (n : Option Nat) :
    (p.withThreadContinues n).core = { p.core with thread_continues := n } := by
  cases p; rfl

@[simp] theorem Post.withThreadContinues_thread_replies (p : Post) (n : Option Nat) :
    (p.withThreadContinues n).thread_replies = p.thread_replies := by
  cases p; rfl

@[simp] theorem Post.withImmediateParent_core (p : Post) (d : Option SingleFetch) :
    (p.withImmediateParent d).core = { p.core with immediate_parent := d } := by
  cases p; rfl

@[simp] theorem Post.withImmediateParent_thread_replies (p : Post) (d : Option SingleFetch) :
    (p.withImmediateParent d).thread_replies = p.thread_replies := by
  cases p; rfl

@[simp] theorem Post.withThreadReplies_core (p : Post) (tr : List Post) :
    (p.withThreadReplies tr).core = p.core := by
  cases p; rfl

@[simp] theorem Post.withThreadReplies_thread_replies (p : Post) (tr : List Post) :
    (p.withThreadReplies tr).thread_replies = tr := by
  cases p; rfl

theorem Post.uri_def (p : Post) : p.uri = p.core.uri := rfl

theorem Post.author_handle_def (p : Post) : p.author_handle = p.core.author_handle := rfl

theorem Post.created_at_def (p : Post) : p.created_at = p.core.created_at := rfl

theorem Post.reply_parent_def (p : Post) : p.reply_parent = p.core.reply_parent := rfl

theorem Post.reply_root_def (p : Post) : p.reply_root = p.core.reply_root := rfl

theorem Post.reply_context_def (p : Post) : p.reply_context = p.core.reply_context := rfl

/-! Lemmas about postsByUri, the assembler's root lookup. -/

theorem postsByUri_foldl_some {u : String} :
    ∀ (l : List Post) (acc : Option Post) (p : Post),
      l.foldl (fun acc p => if p.uri == u then some p else acc) acc = some p →
      acc = some p ∨ (p ∈ l ∧ p.uri = u) := by
  intro l
  induction l with
  | nil => intro acc p h; exact Or.inl h
  | cons q l' ih =>
    intro acc p h
    simp only [List.foldl_cons] at h
    rcases ih _ p h with h' | ⟨hmem, hu⟩
    · by_cases hq : q.uri == u
      · simp only [if_pos hq] at h'
        obtain rfl : q = p := Option.some.inj h'
        exact Or.inr ⟨List.mem_cons_self _ _, by simpa using hq⟩
      · simp only [if_neg hq] at h'
        exact Or.inl h'
    · exact Or.inr ⟨List.mem_cons_of_mem _ hmem, hu⟩

theorem postsByUri_mem {posts : List Post} {u : String} {p : Post}
    (h : postsByUri posts u = some p) : p ∈ posts ∧ p.uri = u := by
  rcases postsByUri_foldl_some posts none p h with h' | h'
  · cases h'
  · exact h'

theorem postsByUri_foldl_isSome {u : String} :
    ∀ (l : List Post) (acc : Option Post),
      (acc.isSome = true ∨ ∃ p ∈ l, p.uri = u) →
      (l.foldl (fun acc p => if p.uri == u then some p else acc) acc).isSome = true := by
  intro l
  induction l with
  | nil =>
    intro acc h
    rcases h with h | ⟨p, hp, _⟩
    · exact h
    · cases hp
  | cons q l' ih =>
    intro acc h
    simp only [List.foldl_cons]
    apply ih
    rcases h with h | ⟨p, hp, hu⟩
    · left
      by_cases hq : (q.uri == u) = true
      · rw [if_pos hq]; rfl
      · rw [if_neg hq]; exact h
    · rcases List.mem_cons.mp hp with rfl | hp'
      · left
        rw [if_pos (show (p.uri == u) = true by simp [hu])]; rfl
      · exact Or.inr ⟨p, hp', hu⟩

theorem postsByUri_isSome_iff (posts : List Post) (u : String) :
    (postsByUri posts u).isSome = true ↔ ∃ p ∈ posts, p.uri = u := by
  constructor
  · intro h
    obtain ⟨p, hp⟩ := Option.isSome_iff_exists.mp h
    obtain ⟨hmem, hu⟩ := postsByUri_mem hp
    exact ⟨p, hmem, hu⟩
  · intro h
    exact postsByUri_foldl_isSome posts none (Or.inr h)

theorem postsByUri_self {posts : List Post} {P : Post}
    (hnd : (posts.map Post.uri).Nodup) (hP : P ∈ posts) :
    postsByUri posts P.uri = some P := by
  have hs : (postsByUri posts P.uri).isSome = true :=
    (postsByUri_isSome_iff posts P.uri).mpr ⟨P, hP, rfl⟩
  obtain ⟨p, hp⟩ := Option.isSome_iff_exists.mp hs
  obtain ⟨hmem, hu⟩ := postsByUri_mem hp
  have : p = P := List.inj_on_of_nodup_map hnd hmem hP hu
  rw [hp, this]

/-! Lemmas about buildThreadAt, the assembler's whole-batch scan. -/

theorem buildThreadAt_fst_mono {root : String} :
    ∀ (l : List Post) (acc : List Post × List String) (a : Post), a ∈ acc.1 →
      a ∈ (l.foldl
        (fun acc q =>
          if q.reply_root == some root && !(acc.2.contains q.uri) then
            (acc.1 ++ [q], q.uri :: acc.2)
          else acc)
        acc).1 := by
  intro l
  induction l with
  | nil => intro acc a h; exact h
  | cons q l' ih =>
    intro acc a h
    simp only [List.foldl_cons]
    by_cases hc : (q.reply_root == some root && !(acc.2.contains q.uri)) = true
    · rw [if_pos hc]
      exact ih _ a (List.mem_append_left _ h)
    · rw [if_neg hc]
      exact ih _ a h

theorem buildThreadAt_fst_sub {root : String} :
    ∀ (l : List Post) (acc : List Post × List String) (a : Post),
      a ∈ (l.foldl
        (fun acc q =>
          if q.reply_root == some root && !(acc.2.contains q.uri) then
            (acc.1 ++ [q], q.uri :: acc.2)
          else acc)
        acc).1 →
      a ∈ acc.1 ∨ a ∈ l := by
  intro l
  induction l with
  | nil => intro acc a h; exact Or.inl h
  | cons q l' ih =>
    intro acc a h
    simp only [List.foldl_cons] at h
    by_cases hc : (q.reply_root == some root && !(acc.2.contains q.uri)) = true
    · rw [if_pos hc] at h
      rcases ih _ a h with h' | h'
      · rcases List.mem_append.mp h' with h'' | h''
        · exact Or.inl h''
        · exact Or.inr (List.mem_cons.mpr (Or.inl (List.mem_singleton.mp h'')))
      · exact Or.inr (List.mem_cons_of_mem _ h')
    · rw [if_neg hc] at h
      rcases ih _ a h with h' | h'
      · exact Or.inl h'
      · exact Or.inr (List.mem_cons_of_mem _ h')

theorem buildThreadAt_snd_sub {root : String} :
    ∀ (l : List Post) (acc : List Post × List String) (u : String),
      u ∈ (l.foldl
        (fun acc q =>
          if q.reply_root == some root && !(acc.2.contains q.uri) then
            (acc.1 ++ [q], q.uri :: acc.2)
          else acc)
        acc).2 →
      u ∈ acc.2 ∨ ∃ q ∈ l, q.reply_root = some root ∧ u = q.uri := by
  intro l
  induction l with
  | nil => intro acc u h; exact Or.inl h
  | cons q l' ih =>
    intro acc u h
    simp only [List.foldl_cons] at h
    by_cases hc : (q.reply_root == some root && !(acc.2.contains q.uri)) = true
    · rw [if_pos hc] at h
      rcases ih _ u h with h' | ⟨q', hq', hr, hu⟩
      · rcases List.mem_cons.mp h' with h'' | h''
        · exact Or.inr ⟨q, List.mem_cons_self _ _,
            by simpa using (Bool.and_eq_true _ _ |>.mp hc).1, h''⟩
        · exact Or.inl h''
      · exact Or.inr ⟨q', List.mem_cons_of_mem _ hq', hr, hu⟩
    · rw [if_neg hc] at h
      rcases ih _ u h with h' | ⟨q', hq', hr, hu⟩
      · exact Or.inl h'
      · exact Or.inr ⟨q', List.mem_cons_of_mem _ hq', hr, hu⟩

theorem buildThreadAt_complete {root : String} :
    ∀ (l : List Post) (acc : List Post × List String) (R : Post),
      R ∈ l → R.reply_root = some root → (l.map Post.uri).Nodup →
      acc.2.contains R.uri = false →
      R ∈ (l.foldl
        (fun acc q =>
          if q.reply_root == some root && !(acc.2.contains q.uri) then
            (acc.1 ++ [q], q.uri :: acc.2)
          else acc)
        acc).1 := by
  intro l
  induction l with
  | nil => intro acc R h; cases h
  | cons q l' ih =>
    intro acc R hR hroot hnd hseen
    simp only [List.foldl_cons]
    rcases List.mem_cons.mp hR with rfl | hR'
    · have hc : (R.reply_root == some root && !(acc.2.contains R.uri)) = true := by
        rw [hseen]
        simp [hroot]
      rw [if_pos hc]
      exact buildThreadAt_fst_mono l' _ R (List.mem_append_right _ (List.mem_singleton_self R))
    · have hndtail : (l'.map Post.uri).Nodup := (List.nodup_cons.mp (by simpa using hnd)).2
      have hne : ¬ R.uri = q.uri := by
        intro he
        have : q.uri ∉ l'.map Post.uri := (List.nodup_cons.mp (by simpa using hnd)).1
        exact this (he ▸ List.mem_map_of_mem Post.uri hR')
      by_cases hc : (q.reply_root == some root && !(acc.2.contains q.uri)) = true
      · rw [if_pos hc]
        apply ih _ R hR' hroot hndtail
        have h1 : R.uri ∉ acc.2 := by simpa using hseen
        have : R.uri ∉ q.uri :: acc.2 := by
          intro hm
          rcases List.mem_cons.mp hm with hm | hm
          · exact hne hm
          · exact h1 hm
        simpa using this
      · rw [if_neg hc]
        exact ih _ R hR' hroot hndtail hseen

/-! Membership lemmas for organize_threads. -/

theorem organizeStep_threads_mono (all : List Post) (st : OrganizeState) (p : Post)
    (t : Thread) (h : t ∈ st.threads) : t ∈ (organizeStep all st p).threads := by
  unfold organizeStep
  by_cases h1 : st.seen.contains p.uri = true
  · rw [if_pos h1]; exact h
  · rw [if_neg h1]
    by_cases h2 : truthy p.reply_root = true
    · rw [if_pos h2]
      cases hl : postsByUri all (p.reply_root.getD "") with
      | some rootPost =>
        simp only []
        by_cases h3 : st.seen.contains (p.reply_root.getD "") = true
        · rw [if_pos h3]; exact h
        · rw [if_neg h3]
          exact List.mem_append_left _ h
      | none =>
        simp only []
        exact List.mem_append_left _ h
    · rw [if_neg h2]
      exact List.mem_append_left _ h

theorem organizeFold_threads_mono (all : List Post) :
    ∀ (l : List Post) (st : OrganizeState) (t : Thread), t ∈ st.threads →
      t ∈ (l.foldl (organizeStep all) st).threads := by
  intro l
  induction l with
  | nil => intro st t h; exact h
  | cons p l' ih =>
    intro st t h
    exact ih _ t (organizeStep_threads_mono all st p t h)

theorem organizeStep_member (all : List Post) (st : OrganizeState) (p : Post)
    (hp : p ∈ all)
    (hst : ∀ t ∈ st.threads, ∀ q ∈ t.posts, q ∈ all) :
    ∀ t ∈ (organizeStep all st p).threads, ∀ q ∈ t.posts, q ∈ all := by
  unfold organizeStep
  by_cases h1 : st.seen.contains p.uri = true
  · rw [if_pos h1]; exact hst
  · rw [if_neg h1]
    by_cases h2 : truthy p.reply_root = true
    · rw [if_pos h2]
      cases hl : postsByUri all (p.reply_root.getD "") with
      | some rootPost =>
        simp only []
        by_cases h3 : st.seen.contains (p.reply_root.getD "") = true
        · rw [if_pos h3]; exact hst
        · rw [if_neg h3]
          intro t ht q hq
          rcases List.mem_append.mp ht with ht | ht
          · exact hst t ht q hq
          · rcases List.mem_singleton.mp ht with rfl
            have hq' := (sortOn_mem _ _ q).mp hq
            rcases buildThreadAt_fst_sub all _ q hq' with h' | h'
            · rcases List.mem_singleton.mp h' with rfl
              exact (postsByUri_mem hl).1
            · exact h'
      | none =>
        simp only []
        intro t ht q hq
        rcases List.mem_append.mp ht with ht | ht
        · exact hst t ht q hq
        · rcases List.mem_singleton.mp ht with rfl
          rcases List.mem_singleton.mp hq with rfl
          exact hp
    · rw [if_neg h2]
      intro t ht q hq
      rcases List.mem_append.mp ht with ht | ht
      · exact hst t ht q hq
      · rcases List.mem_singleton.mp ht with rfl
        rcases List.mem_singleton.mp hq with rfl
        exact hp

theorem organize_threads_member (posts : List Post) :
    ∀ t ∈ organize_threads posts, ∀ p ∈ t.posts, p ∈ posts := by
  have main : ∀ (l : List Post) (st : OrganizeState), (∀ p ∈ l, p ∈ posts) →
      (∀ t ∈ st.threads, ∀ q ∈ t.posts, q ∈ posts) →
      ∀ t ∈ (l.foldl (organizeStep posts) st).threads, ∀ q ∈ t.posts, q ∈ posts := by
    intro l
    induction l with
    | nil => intro st _ hst; exact hst
    | cons p l' ih =>
      intro st hl hst
      exact ih _ (fun q hq => hl q (List.mem_cons_of_mem _ hq))
        (organizeStep_member posts st p (hl p (List.mem_cons_self _ _)) hst)
  intro t ht p hp
  exact main posts ⟨[], []⟩ (fun p hp => hp) (by intro t ht; cases ht) t ht p hp

/-! Lemmas for the Section Organizer. -/

theorem headD_mem {α : Type} {l : List α} (d : α) (h : l ≠ []) : l.headD d ∈ l := by
  cases l with
  | nil => exact absurd rfl h
  | cons x xs => exact List.mem_cons_self x xs

theorem splitFavorites_fold_length (FAV : List String) (threads : List Thread) :
    ∀ (indices : List Nat) (init : List Thread × List Thread),
      ((indices.foldl
        (fun fo idx =>
          let thread := threads.getD idx ⟨.single, []⟩
          if thread.posts.any (fun p => FAV.contains p.author_handle) then
            (fo.1 ++ [thread], fo.2)
          else (fo.1, fo.2 ++ [thread]))
        init).1.length +
       (indices.foldl
        (fun fo idx =>
          let thread := threads.getD idx ⟨.single, []⟩
          if thread.posts.any (fun p => FAV.contains p.author_handle) then
            (fo.1 ++ [thread], fo.2)
          else (fo.1, fo.2 ++ [thread]))
        init).2.length) = init.1.length + init.2.length + indices.length := by
  intro indices
  induction indices with
  | nil => intro init; simp
  | cons i is ih =>
    intro init
    simp only [List.foldl_cons]
    by_cases h : ((threads.getD i ⟨.single, []⟩).posts.any
        (fun p => FAV.contains p.author_handle)) = true
    · rw [if_pos h]
      rw [ih]
      simp
      omega
    · rw [if_neg h]
      rw [ih]
      simp
      omega

theorem splitFavorites_length (FAV : List String) (threads : List Thread)
    (indices : List Nat) :
    (splitFavorites FAV threads indices).1.length +
      (splitFavorites FAV threads indices).2.length = indices.length := by
  have := splitFavorites_fold_length FAV threads indices ([], [])
  simpa [splitFavorites] using this

theorem themeSectionStep_nonempty (FAV : List String) (threads : List Thread)
    (classifications : List (Nat × String)) (acc : List Section) (theme : Theme)
    (hacc : ∀ s ∈ acc, s.threads ≠ []) :
    ∀ s ∈ themeSectionStep FAV threads classifications acc theme, s.threads ≠ [] := by
  unfold themeSectionStep
  by_cases h : ((classifications.filter
      (fun c => c.2 == theme.id && c.1 < threads.length)).map (fun c => c.1)).isEmpty = true
  · rw [if_pos h]; exact hacc
  · rw [if_neg h]
    intro s hs
    rcases List.mem_append.mp hs with hs | hs
    · exact hacc s hs
    · rcases List.mem_singleton.mp hs with rfl
      simp only []
      intro hempty
      have hlen := congrArg List.length hempty
      rw [List.length_append, sortOn_length, sortOn_length, splitFavorites_length] at hlen
      have : ¬ ((classifications.filter
          (fun c => c.2 == theme.id && c.1 < threads.length)).map
          (fun c => c.1)).length = 0 := by
        intro h0
        exact absurd (List.isEmpty_iff_length_eq_zero.mpr h0) (by simpa using h)
      exact this (by simpa using hlen)

/-- C9: every section emitted by the Section Organizer (organize_by_theme)
contains at least one thread — a theme with no classified threads produces no
section, and the voices / catch-all sections are only emitted when
non-empty. -/
theorem C9_no_empty_sections (FAV : List String) (threads : List Thread)
    (themes : List Theme) (classifications : List (Nat × String)) :
    ∀ s ∈ organize_by_theme FAV threads themes classifications, s.threads ≠ [] := by
  have base : ∀ (ts : List Theme) (acc : List Section),
      (∀ s ∈ acc, s.threads ≠ []) →
      ∀ s ∈ ts.foldl (themeSectionStep FAV threads classifications) acc,
        s.threads ≠ [] := by
    intro ts
    induction ts with
    | nil => intro acc h; exact h
    | cons t ts' ih =>
      intro acc h
      exact ih _ (themeSectionStep_nonempty FAV threads classifications acc t h)
  unfold organize_by_theme
  simp only []
  intro s hs
  have hthemes : ∀ s ∈ themes.foldl (themeSectionStep FAV threads classifications) [],
      s.threads ≠ [] := base themes [] (by intro s h; cases h)
  by_cases hv : ((splitFavorites FAV threads
      ((classifications.filter (fun c => c.2 == ("misc") && c.1 < threads.length)).map
        (fun c => c.1))).1).isEmpty = true
  all_goals by_cases hm : ((splitFavorites FAV threads
      ((classifications.filter (fun c => c.2 == ("misc") && c.1 < threads.length)).map
        (fun c => c.1))).2).isEmpty = true
  all_goals simp only [hv, hm, if_true, if_false, Bool.false_eq_true] at hs
  · exact hthemes s hs
  · rcases List.mem_append.mp hs with hs | hs
    · exact hthemes s hs
    · rcases List.mem_singleton.mp hs with rfl
      simp only []
      intro hempty
      have := congrArg List.length hempty
      rw [sortOn_length] at this
      exact absurd (List.isEmpty_iff_length_eq_zero.mpr (by simpa using this)) (by simpa using hm)
  · rcases List.mem_append.mp hs with hs | hs
    · exact hthemes s hs
    · rcases List.mem_singleton.mp hs with rfl
      simp only []
      intro hempty
      have := congrArg List.length hempty
      rw [sortOn_length] at this
      exact absurd (List.isEmpty_iff_length_eq_zero.mpr (by simpa using this)) (by simpa using hv)
  · rcases List.mem_append.mp hs with hs | hs
    · rcases List.mem_append.mp hs with hs | hs
      · exact hthemes s hs
      · rcases List.mem_singleton.mp hs with rfl
        simp only []
        intro hempty
        have := congrArg List.length hempty
        rw [sortOn_length] at this
        exact absurd (List.isEmpty_iff_length_eq_zero.mpr (by simpa using this))
          (by simpa using hv)
    · rcases List.mem_singleton.mp hs with rfl
      simp only []
      intro hempty
      have := congrArg List.length hempty
      rw [sortOn_length] at this
      exact absurd (List.isEmpty_iff_length_eq_zero.mpr (by simpa using this)) (by simpa using hm)

/-- Concrete normalized post used by the concrete instances below: the shape
extract_post_data emits, with the given uri, author handle, timestamp, and
reply links. -/
def samplePost (u h c : String) (rp rr : Option String) : Post :=
  Post.mk
    { uri := u, cid := "", author_handle := h, author_name := h, author_avatar := none,
      text := "", created_at := some c, like_count := 0, repost_count := 0,
      reply_count := 0, is_repost := false, reposted_by := none, reply_parent := rp,
      reply_root := rr, quote_post := none, images := [], external_link := none,
      reply_context := none, thread_continues := none, immediate_parent := none } []

/-- Witness for C9 at a concrete input: one thread classified to one theme
yields one section, and that section is non-empty. -/
theorem C9_no_empty_sections_witness :
    ((organize_by_theme [("f")] [⟨.single, [samplePost ("at://u") ("f") ("1") none none]⟩]
        [⟨("t"), ("T"), ("D")⟩] [(0, ("t"))]).headD
      ⟨"", "", [], 0, false⟩).threads ≠ [] :=
  C9_no_empty_sections [("f")] [⟨.single, [samplePost ("at://u") ("f") ("1") none none]⟩]
    [⟨("t"), ("T"), ("D")⟩] [(0, ("t"))] _
    (headD_mem _ (by
      intro h
      exact absurd (congrArg List.length h) (by decide)))

/-! Claim C8: image handling of the Post Normalizer. -/

/-- Raw image references selected by the embed-type sniffing of lines 381-401,
before conversion: the images block and then the recordWithMedia media block. -/
def rawSelectedImages (e : RawEmbed) : List RawImage :=
  (if pyIn ("images") (lowerStr e.py_type) then
    (match e.images with
     | some l => l
     | none => [])
  else []) ++
  (if pyIn ("recordwithmedia") (lowerStr e.py_type) then
    (match e.media with
     | some m => m.images.getD []
     | none => [])
  else [])

theorem embedImages_eq_map (e : RawEmbed) :
    embedImages e = (rawSelectedImages e).map convRawImage := by
  unfold embedImages rawSelectedImages
  rw [List.map_append]
  by_cases h1 : pyIn ("images") (lowerStr e.py_type) = true
  all_goals by_cases h2 : pyIn ("recordwithmedia") (lowerStr e.py_type) = true
  all_goals simp only [h1, h2, if_true, if_false, Bool.false_eq_true, List.map_nil]
  all_goals cases e.images <;> cases e.media <;> simp

theorem extract_images_eq {fv : FeedView} {p : Post}
    (h : extract_post_data fv = Except.ok p) :
    p.images = (match fv.post.embed with
      | some e => embedImages e
      | none => []) := by
  unfold extract_post_data at h
  cases ha : fv.post.author with
  | none => rw [ha] at h; cases h
  | some author =>
    rw [ha] at h
    simp only [] at h
    cases hr : fv.reason with
    | none =>
      rw [hr] at h
      simp only [] at h
      cases h
      rfl
    | some reason =>
      rw [hr] at h
      simp only [] at h
      by_cases hp : pyIn ("reasonRepost") reason.py_type = true
      · rw [if_pos hp] at h
        cases hb : reason.by_ with
        | none => rw [hb] at h; cases h
        | some b =>
          rw [hb] at h
          simp only [] at h
          cases h
          rfl
      · rw [if_neg hp] at h
        simp only [] at h
        cases h
        rfl

theorem filter_map_convRawImage_length (url : String) :
    ∀ l : List RawImage,
      ((l.map convRawImage).filter (fun i => i.fullsize == some url)).length =
        (l.filter (fun r => r.fullsize == some url)).length := by
  intro l
  induction l with
  | nil => rfl
  | cons r rs ih =>
    simp only [List.map_cons, List.filter_cons]
    have : (convRawImage r).fullsize = r.fullsize := rfl
    rw [this]
    by_cases h : (r.fullsize == some url) = true
    · simp only [h, if_true, List.length_cons, ih]
    · simp only [h, Bool.false_eq_true, if_false, ih]

/-- Counterexample to C8 as stated: a single post whose embed carries two
image references resolving to the same fullsize URL.  The claim says the
asset appears exactly once in the post's images list; the normalizer performs
no deduplication and emits it twice. -/
def dupImgFV : FeedView :=
  { post :=
      { uri := "at://p1", cid := "c1"
        author := some { handle := "h", display_name := none, avatar := none }
        record := { text := some ("hello"), created_at := some ("2025"), reply := none }
        like_count := none, repost_count := none, reply_count := none
        embed := some
          { py_type := "app.bsky.embed.images#view"
            images := some
              [ { alt := none, thumb := none, fullsize := some ("URL") },
                { alt := some ("pic"), thumb := some ("URL-thumb"),
                  fullsize := some ("URL") } ]
            media := none, record := none, external := none } }
    reason := none }

/-- C8 counterexample: on dupImgFV the normalized post's images list contains
the resolved URL twice, not once — extract_post_data does not deduplicate
images by resolved URL. -/
theorem C8_counterexample :
    ((extract_post_data dupImgFV).map
        (fun p => (p.images.filter (fun i => i.fullsize == some ("URL"))).length)) =
      Except.ok 2 ∧
    ¬ ((extract_post_data dupImgFV).map
        (fun p => (p.images.filter (fun i => i.fullsize == some ("URL"))).length)) =
      Except.ok 1 := by
  constructor
  · rfl
  · intro h
    rw [show ((extract_post_data dupImgFV).map
        (fun p => (p.images.filter (fun i => i.fullsize == some ("URL"))).length)) =
      Except.ok 2 from rfl] at h
    cases h

/-- C8 (amended): the Post Normalizer performs no deduplication of images by
resolved URL — every raw image reference selected from the embed yields one
entry of the post's images list in order, so a URL referenced k times appears
k times (multiplicity is preserved exactly). -/
theorem C8_no_image_dedup (fv : FeedView) (e : RawEmbed) (p : Post) (url : String)
    (hembed : fv.post.embed = some e)
    (hok : extract_post_data fv = Except.ok p) :
    (p.images.filter (fun i => i.fullsize == some url)).length =
      ((rawSelectedImages e).filter (fun r => r.fullsize == some url)).length := by
  have h1 := extract_images_eq hok
  rw [hembed] at h1
  simp only [] at h1
  rw [h1, embedImages_eq_map]
  exact filter_map_convRawImage_length url (rawSelectedImages e)

/-- Witness for the amended C8 at the concrete duplicated-URL input: both
sides evaluate to 2. -/
theorem C8_no_image_dedup_witness :
    ∃ p, extract_post_data dupImgFV = Except.ok p ∧
      (p.images.filter (fun i => i.fullsize == some ("URL"))).length = 2 := by
  cases hok : extract_post_data dupImgFV with
  | error e =>
    have h2 : (extract_post_data dupImgFV).isOk = true := rfl
    rw [hok] at h2
    cases h2
  | ok p =>
    refine ⟨p, rfl, ?_⟩
    have := C8_no_image_dedup dupImgFV
      ({ py_type := "app.bsky.embed.images#view"
         images := some
           [ { alt := none, thumb := none, fullsize := some ("URL") },
             { alt := some ("pic"), thumb := some ("URL-thumb"),
               fullsize := some ("URL") } ]
         media := none, record := none, external := none })
      p ("URL") rfl hok
    rw [this]
    rfl

/-! Claim C7: failure behaviour of batch normalization. -/

/-- Well-formedness of a raw feed entry: the attribute chains extract_post_data
dereferences without a hasattr guard are present (the author object, and the
.by object of a repost reason).  Nothing is required of quotes, embeds, or
reply structure — those are all guarded reads with absent-value fallbacks. -/
def entryWellFormed (fv : FeedView) : Prop :=
  fv.post.author.isSome = true ∧
    ∀ r, fv.reason = some r → pyIn ("reasonRepost") r.py_type = true →
      r.by_.isSome = true

theorem extract_ok_of_wellFormed {fv : FeedView} (h : entryWellFormed fv) :
    ∃ p, extract_post_data fv = Except.ok p := by
  obtain ⟨ha, hr⟩ := h
  unfold extract_post_data
  cases hauth : fv.post.author with
  | none => rw [hauth] at ha; cases ha
  | some author =>
    simp only []
    cases hre : fv.reason with
    | none => exact ⟨_, rfl⟩
    | some reason =>
      simp only []
      by_cases hpy : pyIn ("reasonRepost") reason.py_type = true
      · rw [if_pos hpy]
        cases hb : reason.by_ with
        | none =>
          have := hr reason hre hpy
          rw [hb] at this
          cases this
        | some b => exact ⟨_, rfl⟩
      · rw [if_neg hpy]
        exact ⟨_, rfl⟩

/-- A plain well-formed feed entry with no embed and no reason. -/
def plainFV (u : String) : FeedView :=
  { post :=
      { uri := u, cid := "c", author := some { handle := "h", display_name := none, avatar := none }
        record := { text := some ("t"), created_at := some ("2025"), reply := none }
        like_count := none, repost_count := none, reply_count := none, embed := none }
    reason := none }

/-- A malformed feed entry: the author object is absent, so the unguarded
post.author.handle access raises. -/
def badAuthorFV : FeedView :=
  { post :=
      { uri := "at://bad", cid := "c", author := none
        record := { text := some ("t"), created_at := some ("2025"), reply := none }
        like_count := none, repost_count := none, reply_count := none, embed := none }
    reason := none }

/-- A well-formed entry whose record embed has a missing quoted record
(blocked/deleted quote target): normalization tolerates it. -/
def missingQuoteFV : FeedView :=
  { post :=
      { uri := "at://q", cid := "c", author := some { handle := "h2", display_name := none, avatar := none }
        record := { text := some ("t"), created_at := some ("2025"), reply := none }
        like_count := none, repost_count := none, reply_count := none
        embed := some { py_type := "app.bsky.embed.record#view", images := none,
                        media := none, record := none, external := none } }
    reason := none }

/-- C7 counterexample: a batch holding one malformed entry (absent author
object) between two good ones.  The claim says the malformed entry is skipped
and the other entries are still normalized; the list comprehension of
generate_pdf line 2191 has no per-entry handler, so the whole batch aborts
with the exception and no posts are produced. -/
theorem C7_counterexample :
    processBatch [plainFV ("at://1"), badAuthorFV, plainFV ("at://2")] =
      Except.error ("AttributeError: post.author") ∧
    ¬ ∃ posts, processBatch [plainFV ("at://1"), badAuthorFV, plainFV ("at://2")] =
      Except.ok posts := by
  refine ⟨rfl, ?_⟩
  rintro ⟨posts, h⟩
  rw [show processBatch [plainFV ("at://1"), badAuthorFV, plainFV ("at://2")] =
    Except.error ("AttributeError: post.author") from rfl] at h
  cases h

/-- C7 (amended): an entry with missing optional sub-structure (absent quoted
record, absent embed, absent reply) is normalized without aborting — the
batch succeeds whenever every entry's unguarded attribute chains (author
object, repost reason's .by) are present, and then every entry is normalized
(one output post per entry).  There is no skip-with-warning: as
C7_counterexample shows, an entry whose required attributes are absent aborts
the entire batch. -/
theorem C7_batch_of_wellFormed (feed : List FeedView)
    (h : ∀ fv ∈ feed, entryWellFormed fv) :
    ∃ posts, processBatch feed = Except.ok posts ∧ posts.length = feed.length := by
  induction feed with
  | nil => exact ⟨[], rfl, rfl⟩
  | cons fv feed' ih =>
    obtain ⟨p, hp⟩ := extract_ok_of_wellFormed (h fv (List.mem_cons_self _ _))
    obtain ⟨ps, hps, hlen⟩ := ih (fun x hx => h x (List.mem_cons_of_mem _ hx))
    refine ⟨p :: ps, ?_, by simp [hlen]⟩
    unfold processBatch at hps ⊢
    rw [List.mapM_cons, hp, hps]
    rfl

/-- Witness for the amended C7: a three-entry batch whose middle entry has a
missing quoted record normalizes completely, producing three posts. -/
theorem C7_batch_of_wellFormed_witness :
    ∃ posts, processBatch [plainFV ("at://1"), missingQuoteFV, plainFV ("at://2")] =
      Except.ok posts ∧ posts.length = 3 :=
  C7_batch_of_wellFormed [plainFV ("at://1"), missingQuoteFV, plainFV ("at://2")]
    (by
      intro fv hfv
      rcases List.mem_cons.mp hfv with rfl | hfv
      · exact ⟨rfl, by intro r hr; cases hr⟩
      rcases List.mem_cons.mp hfv with rfl | hfv
      · exact ⟨rfl, by intro r hr; cases hr⟩
      rcases List.mem_cons.mp hfv with rfl | hfv
      · exact ⟨rfl, by intro r hr; cases hr⟩
      · cases hfv)

/-! Accessor-preservation grid: the annotation writers leave every identity
and threading field of a post unchanged. -/

@[simp] theorem Post.withContext_uri (p : Post) (c : Option ReplyContext) :
    (p.withContext c).uri = p.uri := by cases p; rfl

@[simp] theorem Post.withContext_author_handle (p : Post) (c : Option ReplyContext) :
    (p.withContext c).author_handle = p.author_handle := by cases p; rfl

@[simp] theorem Post.withContext_created_at (p : Post) (c : Option ReplyContext) :
    (p.withContext c).created_at = p.created_at := by cases p; rfl

@[simp] theorem Post.withContext_reply_parent (p : Post) (c : Option ReplyContext) :
    (p.withContext c).reply_parent = p.reply_parent := by cases p; rfl

@[simp] theorem Post.withContext_reply_root (p : Post) (c : Option ReplyContext) :
    (p.withContext c).reply_root = p.reply_root := by cases p; rfl

@[simp] theorem Post.withContext_reply_context (p : Post) (c : Option ReplyContext) :
    (p.withContext c).reply_context = c := by cases p; rfl

@[simp] theorem Post.withThreadContinues_uri (p : Post) (n : Option Nat) :
    (p.withThreadContinues n).uri = p.uri := by cases p; rfl

@[simp] theorem Post.withThreadContinues_author_handle (p : Post) (n : Option Nat) :
    (p.withThreadContinues n).author_handle = p.author_handle := by cases p; rfl

@[simp] theorem Post.withThreadContinues_created_at (p : Post) (n : Option Nat) :
    (p.withThreadContinues n).created_at = p.created_at := by cases p; rfl

@[simp] theorem Post.withThreadContinues_reply_parent (p : Post) (n : Option Nat) :
    (p.withThreadContinues n).reply_parent = p.reply_parent := by cases p; rfl

@[simp] theorem Post.withThreadContinues_reply_root (p : Post) (n : Option Nat) :
    (p.withThreadContinues n).reply_root = p.reply_root := by cases p; rfl

@[simp] theorem Post.withThreadContinues_reply_context (p : Post) (n : Option Nat) :
    (p.withThreadContinues n).reply_context = p.reply_context := by cases p; rfl

@[simp] theorem Post.withImmediateParent_uri (p : Post) (d : Option SingleFetch) :
    (p.withImmediateParent d).uri = p.uri := by cases p; rfl

@[simp] theorem Post.withImmediateParent_author_handle (p : Post) (d : Option SingleFetch) :
    (p.withImmediateParent d).author_handle = p.author_handle := by cases p; rfl

@[simp] theorem Post.withImmediateParent_created_at (p : Post) (d : Option SingleFetch) :
    (p.withImmediateParent d).created_at = p.created_at := by cases p; rfl

@[simp] theorem Post.withImmediateParent_reply_parent (p : Post) (d : Option SingleFetch) :
    (p.withImmediateParent d).reply_parent = p.reply_parent := by cases p; rfl

@[simp] theorem Post.withImmediateParent_reply_root (p : Post) (d : Option SingleFetch) :
    (p.withImmediateParent d).reply_root = p.reply_root := by cases p; rfl

@[simp] theorem Post.withImmediateParent_reply_context (p : Post) (d : Option SingleFetch) :
    (p.withImmediateParent d).reply_context = p.reply_context := by cases p; rfl

@[simp] theorem Post.withThreadReplies_uri (p : Post) (tr : List Post) :
    (p.withThreadReplies tr).uri = p.uri := by cases p; rfl

@[simp] theorem Post.withThreadReplies_author_handle (p : Post) (tr : List Post) :
    (p.withThreadReplies tr).author_handle = p.author_handle := by cases p; rfl

@[simp] theorem Post.withThreadReplies_created_at (p : Post) (tr : List Post) :
    (p.withThreadReplies tr).created_at = p.created_at := by cases p; rfl

@[simp] theorem Post.withThreadReplies_reply_parent (p : Post) (tr : List Post) :
    (p.withThreadReplies tr).reply_parent = p.reply_parent := by cases p; rfl

@[simp] theorem Post.withThreadReplies_reply_root (p : Post) (tr : List Post) :
    (p.withThreadReplies tr).reply_root = p.reply_root := by cases p; rfl

@[simp] theorem Post.withThreadReplies_reply_context (p : Post) (tr : List Post) :
    (p.withThreadReplies tr).reply_context = p.reply_context := by cases p; rfl

/-! Invariant propagation through the favorites reply-context pass. -/

theorem foldl_invariant {α β : Type} (step : α → β → α) (P : α → Prop) :
    ∀ (l : List β) (init : α), P init → (∀ a b, b ∈ l → P a → P (step a b)) →
      P (l.foldl step init) := by
  intro l
  induction l with
  | nil => intro init h0 _; exact h0
  | cons b l' ih =>
    intro init h0 hstep
    exact ih _ (hstep init b (List.mem_cons_self _ _) h0)
      (fun a b' hb' ha => hstep a b' (List.mem_cons_of_mem _ hb') ha)

theorem replyContextGroupStep_invariant
    (ft : String → String → List CtxPost) (su : List CtxPost → String)
    (uris : List String) (P : Post → Prop)
    (hC : ∀ p c, P p → P (p.withContext c))
    (hT : ∀ p n, P p → P (p.withThreadContinues n))
    (cur : List Post) (g : String × List (Nat × Post))
    (h : ∀ p ∈ cur, P p) :
    ∀ p ∈ replyContextGroupStep ft su uris cur g, P p := by
  have hmod : ∀ (f : Post → Post), (∀ p, P p → P (f p)) →
      ∀ (n : Nat) (l : List Post), (∀ p ∈ l, P p) → ∀ p ∈ modifyIdx f n l, P p := by
    intro f hf n l hl p hp
    rcases mem_modifyIdx hp with h' | ⟨a, ha, rfl⟩
    · exact hl p h'
    · exact hf a (hl a ha)
  unfold replyContextGroupStep
  cases g.2 with
  | nil => exact h
  | cons first rest =>
    simp only []
    by_cases h1 : ((ft first.2.uri g.1).filter (contextFilter uris)).isEmpty = true
    · rw [if_pos h1]; exact h
    · rw [if_neg h1]
      by_cases h2 : rest.isEmpty = true
      · rw [if_pos h2]
        by_cases h3 : ((ft first.2.uri g.1).filter (contextFilter uris)).length ≤ 4
        · rw [if_pos h3]
          exact hmod _ (fun p hp => hC p _ hp) _ _ h
        · rw [if_neg h3]
          exact hmod _ (fun p hp => hC p _ hp) _ _ h
      · rw [if_neg h2]
        apply foldl_invariant _ (fun cur2 => ∀ p ∈ cur2, P p) _ _ h
        intro cur2 je _ hcur2
        by_cases hj : (je.1 == 0) = true
        · rw [if_pos hj]
          exact hmod _ (fun p hp => hT _ _ (hC p _ hp)) _ _ hcur2
        · rw [if_neg hj]
          by_cases h4 : (ft je.2.2.uri g.1).isEmpty = true
          · rw [if_pos h4]; exact hcur2
          · rw [if_neg h4]
            exact hmod _ (fun p hp => hC p _ hp) _ _ hcur2

theorem add_reply_context_invariant
    (FAV : List String) (ft : String → String → List CtxPost)
    (su : List CtxPost → String) (posts : List Post) (P : Post → Prop)
    (hC : ∀ p c, P p → P (p.withContext c))
    (hT : ∀ p n, P p → P (p.withThreadContinues n))
    (h : ∀ p ∈ posts, P p) :
    ∀ p ∈ add_reply_context_for_favorites FAV ft su posts, P p := by
  unfold add_reply_context_for_favorites
  apply foldl_invariant _ (fun cur => ∀ p ∈ cur, P p) _ _ h
  intro cur g _ hcur
  exact replyContextGroupStep_invariant ft su _ P hC hT cur g hcur

/-- C10: in a fresh (non-cache) run, the user's own posts are filtered from
the batch before context hydration (add_reply_context_for_favorites) and
thread assembly (organize_threads), so no assembled thread contains a post
authored by the logged-in user. -/
theorem C10_own_posts_filtered (user : String) (posts : List Post)
    (FAV : List String) (ft : String → String → List CtxPost)
    (su : List CtxPost → String) :
    ∀ t ∈ organize_threads
        (add_reply_context_for_favorites FAV ft su (filterOwnPosts user posts)),
      ∀ p ∈ t.posts, ¬ p.author_handle = user := by
  have hfil : ∀ p ∈ filterOwnPosts user posts, ¬ p.author_handle = user := by
    intro p hp
    unfold filterOwnPosts at hp
    by_cases hown : (posts.filter (fun p => p.author_handle == user)).length > 0
    · rw [if_pos hown] at hp
      have := (List.mem_filter.mp hp).2
      simpa using this
    · rw [if_neg hown] at hp
      have h0 : (posts.filter (fun p => p.author_handle == user)).length = 0 := by omega
      have hnil := List.length_eq_zero.mp h0
      intro heq
      have : p ∈ posts.filter (fun p => p.author_handle == user) :=
        List.mem_filter.mpr ⟨hp, by simp [heq]⟩
      rw [hnil] at this
      cases this
  have hhyd : ∀ p ∈ add_reply_context_for_favorites FAV ft su (filterOwnPosts user posts),
      ¬ p.author_handle = user := by
    apply add_reply_context_invariant FAV ft su _ (fun p => ¬ p.author_handle = user)
    · intro p c hp
      simpa using hp
    · intro p n hp
      simpa using hp
    · exact hfil
  intro t ht p hp
  exact hhyd p (organize_threads_member _ t ht p hp)

/-- Witness for C10 at a concrete input: a two-post batch where one post is
the user's own; the assembled output's first thread holds no post of theirs. -/
theorem C10_own_posts_filtered_witness :
    ¬ (((organize_threads
        (add_reply_context_for_favorites [] (fun _ _ => []) (fun _ => "")
          (filterOwnPosts ("me")
            [samplePost ("at://mine") ("me") ("1") none none,
             samplePost ("at://other") ("them") ("2") none none]))).headD
        ⟨.single, []⟩).posts.headD (samplePost ("x") ("x") ("0") none none)).author_handle
      = ("me") := by
  apply C10_own_posts_filtered ("me")
    [samplePost ("at://mine") ("me") ("1") none none,
     samplePost ("at://other") ("them") ("2") none none]
    [] (fun _ _ => []) (fun _ => "")
  · exact headD_mem (⟨.single, []⟩ : Thread) (by
      intro h
      exact absurd (congrArg List.length h) (by decide))
  · exact headD_mem (samplePost ("x") ("x") ("0") none none) (by
      intro h
      exact absurd (congrArg List.length h) (by decide))

/-! Claims C5 and C6: shape of the contexts the favorites pass attaches.
Every full context it writes is the batch-filtered chain, and only when that
chain has at most 4 posts. -/

/-- Invariant on a post's full contexts after the favorites pass: a full
context is a batch-filtered chain of at most 4 posts. -/
def postCtxOk (uris : List String) (p : Post) : Prop :=
  ∀ ps, p.reply_context = some (.full ps) →
    (∀ c ∈ ps, contextFilter uris c = true) ∧ ps.length ≤ 4

theorem postCtxOk_withContext_full {uris : List String} (p : Post) (l : List CtxPost)
    (h1 : ∀ c ∈ l, contextFilter uris c = true) (h2 : l.length ≤ 4) :
    postCtxOk uris (p.withContext (some (.full l))) := by
  intro ps hps
  rw [Post.withContext_reply_context] at hps
  obtain rfl : l = ps := by
    have := Option.some.inj hps
    exact ReplyContext.full.inj this
  exact ⟨h1, h2⟩

theorem postCtxOk_withContext_summary {uris : List String} (p : Post) (s : String) (n : Nat) :
    postCtxOk uris (p.withContext (some (.summary s n))) := by
  intro ps hps
  rw [Post.withContext_reply_context] at hps
  have := Option.some.inj hps
  cases this

theorem postCtxOk_withContext_continued {uris : List String} (p : Post) (l : List CtxPost) :
    postCtxOk uris (p.withContext (some (.continued l))) := by
  intro ps hps
  rw [Post.withContext_reply_context] at hps
  have := Option.some.inj hps
  cases this

theorem postCtxOk_withThreadContinues {uris : List String} {p : Post} (n : Option Nat)
    (h : postCtxOk uris p) : postCtxOk uris (p.withThreadContinues n) := by
  intro ps hps
  rw [Post.withThreadContinues_reply_context] at hps
  exact h ps hps

theorem postCtxOk_modifyIdx {uris : List String} {f : Post → Post} {n : Nat}
    {l : List Post} (hf : ∀ p, postCtxOk uris p → postCtxOk uris (f p))
    (hl : ∀ p ∈ l, postCtxOk uris p) :
    ∀ p ∈ modifyIdx f n l, postCtxOk uris p := by
  intro p hp
  rcases mem_modifyIdx hp with h' | ⟨a, ha, rfl⟩
  · exact hl p h'
  · exact hf a (hl a ha)

theorem replyContextGroupStep_ctxOk
    (ft : String → String → List CtxPost) (su : List CtxPost → String)
    (uris : List String) (cur : List Post) (g : String × List (Nat × Post))
    (h : ∀ p ∈ cur, postCtxOk uris p) :
    ∀ p ∈ replyContextGroupStep ft su uris cur g, postCtxOk uris p := by
  unfold replyContextGroupStep
  cases g.2 with
  | nil => exact h
  | cons first rest =>
    simp only []
    by_cases h1 : ((ft first.2.uri g.1).filter (contextFilter uris)).isEmpty = true
    · rw [if_pos h1]; exact h
    · rw [if_neg h1]
      have hfiltered : ∀ c ∈ (ft first.2.uri g.1).filter (contextFilter uris),
          contextFilter uris c = true := by
        intro c hc
        exact List.of_mem_filter hc
      by_cases h2 : rest.isEmpty = true
      · rw [if_pos h2]
        by_cases h3 : ((ft first.2.uri g.1).filter (contextFilter uris)).length ≤ 4
        · rw [if_pos h3]
          exact postCtxOk_modifyIdx
            (fun p _ => postCtxOk_withContext_full p _ hfiltered h3) h
        · rw [if_neg h3]
          exact postCtxOk_modifyIdx
            (fun p _ => postCtxOk_withContext_summary p _ _) h
      · rw [if_neg h2]
        apply foldl_invariant _ (fun cur2 => ∀ p ∈ cur2, postCtxOk uris p) _ _ h
        intro cur2 je _ hcur2
        by_cases hj : (je.1 == 0) = true
        · rw [if_pos hj]
          by_cases h3 : ((ft first.2.uri g.1).filter (contextFilter uris)).length ≤ 4
          · rw [if_pos h3]
            exact postCtxOk_modifyIdx
              (fun p _ => postCtxOk_withThreadContinues _
                (postCtxOk_withContext_full p _ hfiltered h3)) hcur2
          · rw [if_neg h3]
            exact postCtxOk_modifyIdx
              (fun p _ => postCtxOk_withThreadContinues _
                (postCtxOk_withContext_summary p _ _)) hcur2
        · rw [if_neg hj]
          by_cases h4 : (ft je.2.2.uri g.1).isEmpty = true
          · rw [if_pos h4]; exact hcur2
          · rw [if_neg h4]
            exact postCtxOk_modifyIdx
              (fun p _ => postCtxOk_withContext_continued p _) hcur2

theorem addReplyContext_ctxOk (FAV : List String)
    (ft : String → String → List CtxPost) (su : List CtxPost → String)
    (posts : List Post) (hclean : ∀ p ∈ posts, p.reply_context = none) :
    ∀ p ∈ add_reply_context_for_favorites FAV ft su posts,
      postCtxOk (posts.map Post.uri) p := by
  unfold add_reply_context_for_favorites
  apply foldl_invariant _ (fun cur => ∀ p ∈ cur, postCtxOk (posts.map Post.uri) p)
  · intro p hp ps hps
    rw [hclean p hp] at hps
    cases hps
  · intro cur g _ hcur
    exact replyContextGroupStep_ctxOk ft su _ cur g hcur

/-- C5 (amended): every context of type full attached by the favorites
reply-context pass (add_reply_context_for_favorites) passes the batch filter:
it contains no post whose uri is already present in the batch, and synthetic
gap markers are retained through the filter (contextFilter keeps exactly the
gap markers and the out-of-batch uris).  The continued contexts of that pass
and the contexts attached by add_basic_reply_context are fetched immediate
parents attached without this filter — C5_counterexample shows an in-batch
parent appearing in such a context. -/
theorem C5_full_contexts_filtered (FAV : List String)
    (ft : String → String → List CtxPost) (su : List CtxPost → String)
    (posts : List Post) (hclean : ∀ p ∈ posts, p.reply_context = none) :
    ∀ p' ∈ add_reply_context_for_favorites FAV ft su posts,
      ∀ ps, p'.reply_context = some (.full ps) →
        ∀ c ∈ ps, contextFilter (posts.map Post.uri) c = true :=
  fun p' hp' ps hps => (addReplyContext_ctxOk FAV ft su posts hclean p' hp' ps hps).1

/-- Favorite reply post used by the concrete context instances. -/
def favReplyPost : Post :=
  samplePost ("at://d") ("fav") ("1") (some ("at://r1")) (some ("at://R"))

/-- Out-of-batch ancestor returned by the context fetch. -/
def ctxOutside : CtxPost :=
  ⟨"q", "q", "t", none, some ("at://ext"), false, false⟩

/-- Synthetic gap marker as fetch_thread_context splices it. -/
def ctxGapMarker : CtxPost :=
  ⟨"", "", "...", none, none, true, false⟩

/-- Ancestor whose uri coincides with a post already in the batch. -/
def ctxInBatch : CtxPost :=
  ⟨"q", "q", "t", none, some ("at://d"), false, false⟩

/-- Witness for the amended C5 at a concrete input: the favorites pass fetches
a chain holding an in-batch post, a gap marker and an outside post; the
attached full context is the filtered chain, and the retained gap marker
passes the filter. -/
theorem C5_full_contexts_filtered_witness :
    contextFilter ([favReplyPost].map Post.uri) ctxGapMarker = true :=
  C5_full_contexts_filtered [("fav")] (fun _ _ => [ctxInBatch, ctxGapMarker, ctxOutside])
    (fun _ => "S") [favReplyPost]
    (by
      intro p hp
      rcases List.mem_singleton.mp hp with rfl
      rfl)
    ((add_reply_context_for_favorites [("fav")]
        (fun _ _ => [ctxInBatch, ctxGapMarker, ctxOutside]) (fun _ => "S")
        [favReplyPost]).headD (samplePost ("x") ("x") ("0") none none))
    (headD_mem _ (by
      intro h
      exact absurd (congrArg List.length h) (by decide)))
    [ctxGapMarker, ctxOutside] rfl ctxGapMarker (List.mem_cons_self _ _)

/-- Thread input of the C5 counterexample: a root post and its reply, both in
the batch, assembled into one thread; the reply has no context yet. -/
def c5Threads : List Thread :=
  [⟨.thread,
    [samplePost ("at://a") ("x") ("1") none none,
     samplePost ("at://b") ("y") ("2") (some ("at://a")) (some ("at://a"))]⟩]

/-- Collaborator of the C5 counterexample: fetching at://a succeeds. -/
def c5Fetch : String → Option SingleFetch :=
  fun u => if u == ("at://a") then some ⟨"x", "x", "", "at://a"⟩ else none

/-- C5 counterexample: add_basic_reply_context (a Context Hydrator pass named
by the claim's sources) attaches to the reply a context containing its fetched
immediate parent, whose uri at://a is already present in the current batch —
no batch filter is applied there, refuting the claim for every hydrator
annotation. -/
theorem C5_counterexample :
    (((add_basic_reply_context c5Fetch c5Threads).headD ⟨.single, []⟩).posts.getD 1
        (samplePost ("x") ("x") ("0") none none)).reply_context =
      some (.full [⟨"x", "x", "", none, some ("at://a"), false, false⟩]) ∧
    ((⟨"x", "x", "", none, some ("at://a"), false, false⟩ : CtxPost).is_gap = false ∧
      (c5Threads.flatMap (fun t => t.posts.map Post.uri)).contains ("at://a") = true) :=
  ⟨rfl, rfl, rfl⟩

/-- Invariant for C6: any full context a post carries has at most 4 posts. -/
def postLenOk (p : Post) : Prop :=
  ∀ ps, p.reply_context = some (.full ps) → ps.length ≤ 4

theorem postLenOk_withContext_full (p : Post) (l : List CtxPost) (h : l.length ≤ 4) :
    postLenOk (p.withContext (some (.full l))) := by
  intro ps hps
  rw [Post.withContext_reply_context] at hps
  obtain rfl : l = ps := ReplyContext.full.inj (Option.some.inj hps)
  exact h

theorem postLenOk_withContext_summary (p : Post) (s : String) (n : Nat) :
    postLenOk (p.withContext (some (.summary s n))) := by
  intro ps hps
  rw [Post.withContext_reply_context] at hps
  cases Option.some.inj hps

theorem mem_setContextOnFirstExternal {FAV uris : List String} {ctx : ReplyContext} :
    ∀ {l : List Post} {p' : Post}, p' ∈ setContextOnFirstExternal FAV uris ctx l →
      p' ∈ l ∨ ∃ p ∈ l, p' = p.withContext (some ctx) := by
  intro l
  induction l with
  | nil => intro p' h; cases h
  | cons p ps ih =>
    intro p' h
    unfold setContextOnFirstExternal at h
    by_cases hc : (FAV.contains p.author_handle && (truthy p.reply_parent &&
        !(uris.contains (p.reply_parent.getD "")))) = true
    · rw [if_pos (by simpa [Bool.and_assoc] using hc)] at h
      rcases List.mem_cons.mp h with rfl | h'
      · exact Or.inr ⟨p, List.mem_cons_self _ _, rfl⟩
      · exact Or.inl (List.mem_cons_of_mem _ h')
    · rw [if_neg (by simpa [Bool.and_assoc] using hc)] at h
      rcases List.mem_cons.mp h with rfl | h'
      · exact Or.inl (List.mem_cons_self _ _)
      · rcases ih h' with h'' | ⟨q, hq, rfl⟩
        · exact Or.inl (List.mem_cons_of_mem _ h'')
        · exact Or.inr ⟨q, List.mem_cons_of_mem _ hq, rfl⟩

theorem add_thread_context_lenOk (FAV : List String)
    (fpc : String → Option (List ApiNode)) (su2 : List CtxPost → String)
    (threads : List Thread)
    (h : ∀ t ∈ threads, ∀ p ∈ t.posts, postLenOk p) :
    ∀ t' ∈ add_thread_context_for_favorites FAV fpc su2 threads,
      ∀ p ∈ t'.posts, postLenOk p := by
  intro t' ht'
  unfold add_thread_context_for_favorites at ht'
  obtain ⟨t, ht, rfl⟩ := List.mem_map.mp ht'
  clear ht'
  have hthis := h t ht
  by_cases h1 : (!(t.type == .thread) || t.posts.length ≤ 1) = true
  · rw [if_pos h1]; exact hthis
  · rw [if_neg h1]
    by_cases h2 : (!(t.posts.any (fun p => FAV.contains p.author_handle))) = true
    · rw [if_pos h2]; exact hthis
    · rw [if_neg h2]
      cases hext : externalReplies FAV (t.posts.map Post.uri) t.posts with
      | nil => exact hthis
      | cons hd tl =>
        cases hd with
        | mk fst snd =>
          simp only []
          cases hfpc : fpc snd with
          | none => exact hthis
          | some ups =>
            simp only []
            by_cases h3 : ((((ups.take 4).reverse).map apiNodeToCtx).isEmpty) = true
            · rw [if_pos h3]; exact hthis
            · rw [if_neg h3]
              intro p hp
              have hlen : (((ups.take 4).reverse).map apiNodeToCtx).length ≤ 4 := by
                rw [List.length_map, List.length_reverse, List.length_take]
                omega
              rcases mem_setContextOnFirstExternal hp with h' | ⟨q, hq, rfl⟩
              · exact hthis p h'
              · by_cases h4 : (((fst, snd)) :: tl).length > 3
                · rw [if_pos h4]
                  exact postLenOk_withContext_summary q _ _
                · rw [if_neg h4]
                  exact postLenOk_withContext_full q _ hlen

theorem add_basic_lenOk (fs : String → Option SingleFetch) (threads : List Thread)
    (h : ∀ t ∈ threads, ∀ p ∈ t.posts, postLenOk p) :
    ∀ t' ∈ add_basic_reply_context fs threads, ∀ p ∈ t'.posts, postLenOk p := by
  intro t' ht'
  unfold add_basic_reply_context at ht'
  obtain ⟨t, ht, rfl⟩ := List.mem_map.mp ht'
  intro p' hp'
  obtain ⟨p, hp, rfl⟩ := List.mem_map.mp hp'
  by_cases h1 : (p.reply_context.isSome || !(truthy p.reply_parent)) = true
  · rw [if_pos h1]; exact h t ht p hp
  · rw [if_neg h1]
    cases hf : fs (p.reply_parent.getD "") with
    | none => simp only []; exact h t ht p hp
    | some d =>
      simp only []
      exact postLenOk_withContext_full p _ (by simp)

/-- C6 (amended): across the whole Context Hydrator (the favorites
reply-context pass, the thread-context pass, and the basic-parent pass run in
pipeline order), no post is ever annotated with a full context of more than 4
posts — a filtered chain longer than 4 becomes a summary in the favorites
pass.  The converse direction of the claim fails: a chain of 4 or fewer posts
is not always attached as full — the thread-context pass attaches a summary
whenever a thread has more than 3 external replies regardless of chain length
(C6_counterexample), and the 2nd+ reply of a consolidated group gets a
continued context. -/
theorem C6_full_context_at_most_4 (FAV : List String)
    (ft : String → String → List CtxPost) (su : List CtxPost → String)
    (fpc : String → Option (List ApiNode)) (su2 : List CtxPost → String)
    (fs : String → Option SingleFetch) (posts : List Post)
    (hclean : ∀ p ∈ posts, p.reply_context = none) :
    ∀ t ∈ add_basic_reply_context fs
        (add_thread_context_for_favorites FAV fpc su2
          (organize_threads (add_reply_context_for_favorites FAV ft su posts))),
      ∀ p ∈ t.posts, ∀ ps, p.reply_context = some (.full ps) → ps.length ≤ 4 := by
  have s1 : ∀ p ∈ add_reply_context_for_favorites FAV ft su posts, postLenOk p := by
    intro p hp ps hps
    exact (addReplyContext_ctxOk FAV ft su posts hclean p hp ps hps).2
  have s2 : ∀ t ∈ organize_threads (add_reply_context_for_favorites FAV ft su posts),
      ∀ p ∈ t.posts, postLenOk p := by
    intro t ht p hp
    exact s1 p (organize_threads_member _ t ht p hp)
  have s3 := add_thread_context_lenOk FAV fpc su2 _ s2
  have s4 := add_basic_lenOk fs _ s3
  exact s4

/-- Thread of four favorite replies to an external parent, for the C6
counterexample. -/
def c6Threads : List Thread :=
  [⟨.thread,
    [samplePost ("at://f1") ("fav") ("1") (some ("at://ext")) (some ("at://R")),
     samplePost ("at://f2") ("fav") ("2") (some ("at://ext")) (some ("at://R")),
     samplePost ("at://f3") ("fav") ("3") (some ("at://ext")) (some ("at://R")),
     samplePost ("at://f4") ("fav") ("4") (some ("at://ext")) (some ("at://R"))]⟩]

/-- C6 counterexample: the thread-context pass sees 4 external replies (more
than 3), so it attaches a summary whose chain holds a single post — a
filtered chain of 4 or fewer posts that the claim says must be attached as a
full context. -/
theorem C6_counterexample :
    (((add_thread_context_for_favorites [("fav")]
          (fun _ => some [⟨"z", none, some ("hi")⟩]) (fun _ => "S")
          c6Threads).headD ⟨.single, []⟩).posts.headD
        (samplePost ("x") ("x") ("0") none none)).reply_context =
      some (.summary ("S") 1) ∧
    ¬ ∃ ps, (((add_thread_context_for_favorites [("fav")]
          (fun _ => some [⟨"z", none, some ("hi")⟩]) (fun _ => "S")
          c6Threads).headD ⟨.single, []⟩).posts.headD
        (samplePost ("x") ("x") ("0") none none)).reply_context =
      some (.full ps) := by
  constructor
  · rfl
  · rintro ⟨ps, h⟩
    rw [show (((add_thread_context_for_favorites [("fav")]
          (fun _ => some [⟨"z", none, some ("hi")⟩]) (fun _ => "S")
          c6Threads).headD ⟨.single, []⟩).posts.headD
        (samplePost ("x") ("x") ("0") none none)).reply_context =
      some (.summary ("S") 1) from rfl] at h
    cases Option.some.inj h

/-- Witness for the amended C6 at a concrete input: the favorites pass
attaches a 2-post full context (gap marker plus outside ancestor), the later
passes leave it alone, and 2 is at most 4. -/
theorem C6_full_context_at_most_4_witness :
    ([ctxGapMarker, ctxOutside] : List CtxPost).length ≤ 4 :=
  C6_full_context_at_most_4 [("fav")] (fun _ _ => [ctxInBatch, ctxGapMarker, ctxOutside])
    (fun _ => "S") (fun _ => none) (fun _ => "S2") (fun _ => none) [favReplyPost]
    (by
      intro p hp
      rcases List.mem_singleton.mp hp with rfl
      rfl)
    ((add_basic_reply_context (fun _ => none)
        (add_thread_context_for_favorites [("fav")] (fun _ => none) (fun _ => "S2")
          (organize_threads (add_reply_context_for_favorites [("fav")]
            (fun _ _ => [ctxInBatch, ctxGapMarker, ctxOutside]) (fun _ => "S")
            [favReplyPost])))).headD ⟨.single, []⟩)
    (headD_mem _ (by
      intro h
      exact absurd (congrArg List.length h) (by decide)))
    (((add_basic_reply_context (fun _ => none)
        (add_thread_context_for_favorites [("fav")] (fun _ => none) (fun _ => "S2")
          (organize_threads (add_reply_context_for_favorites [("fav")]
            (fun _ _ => [ctxInBatch, ctxGapMarker, ctxOutside]) (fun _ => "S")
            [favReplyPost])))).headD ⟨.single, []⟩).posts.headD
      (samplePost ("x") ("x") ("0") none none))
    (headD_mem _ (by
      intro h
      exact absurd (congrArg List.length h) (by decide)))
    [ctxGapMarker, ctxOutside] rfl

/-! Claim C1: thread membership in the Thread Assembler. -/

/-- Root post of the spec's assembler scenario. -/
def scenA : Post := samplePost ("at://a") ("x") ("1") none none

/-- First reply of the scenario, reply_root = A. -/
def scenB : Post := samplePost ("at://b") ("y") ("2") (some ("at://a")) (some ("at://a"))

/-- Second reply of the scenario, reply_root = A. -/
def scenC : Post := samplePost ("at://c") ("x") ("3") (some ("at://b")) (some ("at://a"))

/-- C1 counterexample: the claim's own scenario batch [A, B, C] with the root
first.  The assembler emits A as a single thread before reaching B and C;
when it reaches them, their root is already consumed and the `continue` at
line 485 drops them, so the output is the lone thread [A] and no thread
contains both A and B. -/
theorem C1_counterexample :
    organize_threads [scenA, scenB, scenC] = [⟨.single, [scenA]⟩] ∧
    ¬ ∃ t ∈ organize_threads [scenA, scenB, scenC], scenA ∈ t.posts ∧ scenB ∈ t.posts := by
  constructor
  · rfl
  · rintro ⟨t, ht, hA, hB⟩
    rw [show organize_threads [scenA, scenB, scenC] = [⟨.single, [scenA]⟩] from rfl] at ht
    rcases List.mem_singleton.mp ht with rfl
    rcases List.mem_singleton.mp hB with hBA
    have : scenB.uri = scenA.uri := congrArg Post.uri hBA
    exact absurd this (by decide)

/-- Split a list at its first element satisfying a predicate. -/
theorem exists_first_split {α : Type} (p : α → Prop) :
    ∀ (l : List α), (∃ x ∈ l, p x) →
      ∃ la z lb, l = la ++ z :: lb ∧ p z ∧ ∀ w ∈ la, ¬ p w := by
  intro l
  induction l with
  | nil => rintro ⟨x, hx, _⟩; cases hx
  | cons a l' ih =>
    intro hex
    by_cases ha : p a
    · exact ⟨[], a, l', rfl, ha, by intro w hw; cases hw⟩
    · obtain ⟨x, hx, hpx⟩ := hex
      rcases List.mem_cons.mp hx with rfl | hx'
      · exact absurd hpx ha
      · obtain ⟨la, z, lb, heq, hz, hla⟩ := ih ⟨x, hx', hpx⟩
        refine ⟨a :: la, z, lb, by rw [List.cons_append, ← heq], hz, ?_⟩
        intro w hw
        rcases List.mem_cons.mp hw with rfl | hw'
        · exact ha
        · exact hla w hw'

/-- Root-coherence of a batch: a post referenced as another post's reply_root
is itself a thread root and carries no reply_root of its own (as the AT
protocol's reply.root always names the top post of the chain). -/
def rootCoherent (posts : List Post) : Prop :=
  ∀ x ∈ posts, ∀ y ∈ posts, y.reply_root = some x.uri → x.reply_root = none

theorem contains_false_iff (l : List String) (u : String) :
    l.contains u = false ↔ u ∉ l := by
  constructor
  · intro h hm
    have : l.contains u = true := by simpa using hm
    rw [h] at this
    cases this
  · intro h
    by_contra hne
    have : l.contains u = true := by
      cases hc : l.contains u
      · exact absurd hc hne
      · rfl
    exact h (by simpa using this)

/-- Processing a post that is neither P nor a reply into P keeps P's uri, and
the uris of all replies into P, out of the assembler's seen set. -/
theorem organizeStep_preserves_blocked
    (posts : List Post) (P w : Post)
    (hnd : (posts.map Post.uri).Nodup)
    (hcoh : rootCoherent posts)
    (hPmem : P ∈ posts)
    (hProot : P.reply_root = none)
    (hw : w ∈ posts) (hwnp : ¬ w.reply_root = some P.uri) (hwne : ¬ w = P)
    (st : OrganizeState)
    (h1 : st.seen.contains P.uri = false)
    (h2 : ∀ R ∈ posts, R.reply_root = some P.uri → st.seen.contains R.uri = false) :
    (organizeStep posts st w).seen.contains P.uri = false ∧
      ∀ R ∈ posts, R.reply_root = some P.uri →
        (organizeStep posts st w).seen.contains R.uri = false := by
  have inj : ∀ a ∈ posts, ∀ b ∈ posts, a.uri = b.uri → a = b := fun a ha b hb hab =>
    List.inj_on_of_nodup_map hnd ha hb hab
  have hsingle : (w.uri :: st.seen).contains P.uri = false ∧
      ∀ R ∈ posts, R.reply_root = some P.uri →
        (w.uri :: st.seen).contains R.uri = false := by
    constructor
    · rw [contains_false_iff]
      intro hm
      rcases List.mem_cons.mp hm with hm | hm
      · exact hwne (inj w hw P hPmem hm.symm)
      · exact (contains_false_iff _ _).mp h1 hm
    · intro R hR hRr
      rw [contains_false_iff]
      intro hm
      rcases List.mem_cons.mp hm with hm | hm
      · exact hwnp ((inj R hR w hw hm).symm ▸ hRr)
      · exact (contains_false_iff _ _).mp (h2 R hR hRr) hm
  unfold organizeStep
  by_cases hc1 : st.seen.contains w.uri = true
  · rw [if_pos hc1]; exact ⟨h1, h2⟩
  · rw [if_neg hc1]
    by_cases hc2 : truthy w.reply_root = true
    · rw [if_pos hc2]
      cases hl : postsByUri posts (w.reply_root.getD "") with
      | some rp =>
        simp only []
        by_cases hc3 : st.seen.contains (w.reply_root.getD "") = true
        · rw [if_pos hc3]; exact ⟨h1, h2⟩
        · rw [if_neg hc3]
          obtain ⟨hrpmem, hrpuri⟩ := postsByUri_mem hl
          have hwr : w.reply_root = some (w.reply_root.getD "") := by
            cases hrw : w.reply_root with
            | none => rw [hrw] at hc2; cases hc2
            | some r => rfl
          have hrne : ¬ w.reply_root.getD "" = P.uri := by
            intro he
            exact hwnp (by rw [hwr, he])
          constructor
          · rw [contains_false_iff]
            intro hm
            rcases buildThreadAt_snd_sub posts _ P.uri hm with hm' | ⟨q, hq, hqr, hqu⟩
            · rcases List.mem_cons.mp hm' with hm'' | hm''
              · exact hrne hm''.symm
              · exact (contains_false_iff _ _).mp h1 hm''
            · have : q = P := inj q hq P hPmem hqu.symm
              rw [this] at hqr
              rw [hProot] at hqr
              cases hqr
          · intro R hR hRr
            rw [contains_false_iff]
            intro hm
            rcases buildThreadAt_snd_sub posts _ R.uri hm with hm' | ⟨q, hq, hqr, hqu⟩
            · rcases List.mem_cons.mp hm' with hm'' | hm''
              · -- R.uri equals the root being built: R is that root post, yet
                -- root-coherence forces the root's reply_root to be none.
                have hReqrp : R = rp := inj R hR rp hrpmem (by rw [hm'', hrpuri])
                have : rp.reply_root = none :=
                  hcoh rp hrpmem w hw (by rw [hwr, hrpuri])
                rw [hReqrp] at hRr
                rw [this] at hRr
                cases hRr
              · exact (contains_false_iff _ _).mp (h2 R hR hRr) hm''
            · have : q = R := inj q hq R hR hqu.symm
              rw [this] at hqr
              rw [hRr] at hqr
              have : w.reply_root.getD "" = P.uri := by
                exact (Option.some.inj hqr).symm
              exact hrne this
      | none =>
        simp only []
        exact hsingle
    · rw [if_neg hc2]
      exact hsingle

/-- Processing the first reply into an unconsumed P builds, in one step, the
thread rooted at P that contains P and every reply into P from the whole
batch. -/
theorem organizeStep_builds_thread
    (posts : List Post) (P z : Post)
    (hnd : (posts.map Post.uri).Nodup)
    (hPmem : P ∈ posts)
    (hProot : P.reply_root = none)
    (huri : ¬ P.uri = "")
    (hz : z ∈ posts) (hzp : z.reply_root = some P.uri)
    (st : OrganizeState)
    (h1 : st.seen.contains P.uri = false)
    (h2 : ∀ R ∈ posts, R.reply_root = some P.uri → st.seen.contains R.uri = false) :
    ∃ t ∈ (organizeStep posts st z).threads, P ∈ t.posts ∧
      ∀ R ∈ posts, R.reply_root = some P.uri → R ∈ t.posts := by
  have inj : ∀ a ∈ posts, ∀ b ∈ posts, a.uri = b.uri → a = b := fun a ha b hb hab =>
    List.inj_on_of_nodup_map hnd ha hb hab
  have hseenz := h2 z hz hzp
  have htr : truthy z.reply_root = true := by
    rw [hzp]
    unfold truthy
    simp [huri]
  unfold organizeStep
  rw [if_neg (by intro h; rw [hseenz] at h; cases h)]
  rw [if_pos htr]
  rw [hzp]
  simp only [Option.getD_some]
  rw [postsByUri_self hnd hPmem]
  simp only []
  rw [if_neg (by intro h; rw [h1] at h; cases h)]
  refine ⟨⟨.thread, sortOn (fun p => p.created_at.getD "")
    (buildThreadAt posts P P.uri st.seen).1⟩,
    List.mem_append_right _ (List.mem_singleton_self _), ?_, ?_⟩
  · exact (sortOn_mem _ _ P).mpr
      (buildThreadAt_fst_mono posts ([P], P.uri :: st.seen) P (List.mem_singleton_self P))
  · intro R hR hRr
    have hne : ¬ R.uri = P.uri := by
      intro he
      have : R = P := inj R hR P hPmem he
      rw [this] at hRr
      rw [hProot] at hRr
      cases hRr
    have hseenR : ((P.uri :: st.seen).contains R.uri) = false := by
      rw [contains_false_iff]
      intro hm
      rcases List.mem_cons.mp hm with hm | hm
      · exact hne hm
      · exact (contains_false_iff _ _).mp (h2 R hR hRr) hm
    exact (sortOn_mem _ _ R).mpr
      (buildThreadAt_complete posts ([P], P.uri :: st.seen) R hR hRr hnd hseenR)

/-- Folding the assembler over a pending list whose first reply into P comes
before P reaches, and emits, the thread holding P and all its replies. -/
theorem organize_process
    (posts : List Post) (P : Post)
    (hnd : (posts.map Post.uri).Nodup)
    (hcoh : rootCoherent posts)
    (hPmem : P ∈ posts)
    (hProot : P.reply_root = none)
    (huri : ¬ P.uri = "") :
    ∀ (la : List Post) (z : Post) (lb : List Post) (st : OrganizeState),
      (∀ w ∈ la, w ∈ posts) → (∀ w ∈ la, ¬ w.reply_root = some P.uri) →
      (∀ w ∈ la, ¬ w = P) →
      z ∈ posts → z.reply_root = some P.uri →
      st.seen.contains P.uri = false →
      (∀ R ∈ posts, R.reply_root = some P.uri → st.seen.contains R.uri = false) →
      ∃ t ∈ (((la ++ z :: lb).foldl (organizeStep posts) st)).threads, P ∈ t.posts ∧
        ∀ R ∈ posts, R.reply_root = some P.uri → R ∈ t.posts := by
  intro la
  induction la with
  | nil =>
    intro z lb st _ _ _ hz hzp h1 h2
    rw [List.nil_append, List.foldl_cons]
    obtain ⟨t, ht, hP, hall⟩ :=
      organizeStep_builds_thread posts P z hnd hPmem hProot huri hz hzp st h1 h2
    exact ⟨t, organizeFold_threads_mono posts lb _ t ht, hP, hall⟩
  | cons w la' ih =>
    intro z lb st hsub hnp hne hz hzp h1 h2
    rw [List.cons_append, List.foldl_cons]
    obtain ⟨h1', h2'⟩ := organizeStep_preserves_blocked posts P w hnd hcoh hPmem hProot
      (hsub w (List.mem_cons_self _ _)) (hnp w (List.mem_cons_self _ _))
      (hne w (List.mem_cons_self _ _)) st h1 h2
    exact ih z lb (organizeStep posts st w)
      (fun x hx => hsub x (List.mem_cons_of_mem _ hx))
      (fun x hx => hnp x (List.mem_cons_of_mem _ hx))
      (fun x hx => hne x (List.mem_cons_of_mem _ hx))
      hz hzp h1' h2'

/-- C1 (amended): if some reply Q whose reply_root is P's uri occurs strictly
before P in the batch, the batch's uris are pairwise distinct, P's uri is
non-empty, and the batch is root-coherent (a post referenced as a reply_root
carries none itself, as AT-protocol reply.root data does), then the Thread
Assembler puts P and every post whose reply_root equals P's uri into one
output thread.  Without the Q-before-P ordering the property fails:
C1_counterexample shows the spec's scenario batch [A, B, C] with the root
first yields only the single thread [A], dropping B and C. -/
theorem C1_replies_join_root_thread
    (posts l1 l2 : List Post) (Q P : Post)
    (hsplit : posts = l1 ++ Q :: l2)
    (hQroot : Q.reply_root = some P.uri)
    (hP : P ∈ l2)
    (huri : ¬ P.uri = "")
    (hnd : (posts.map Post.uri).Nodup)
    (hcoh : rootCoherent posts) :
    ∃ t ∈ organize_threads posts, P ∈ t.posts ∧
      ∀ R ∈ posts, R.reply_root = some P.uri → R ∈ t.posts := by
  have hQmem : Q ∈ posts := by
    rw [hsplit]
    exact List.mem_append_right _ (List.mem_cons_self _ _)
  have hPmem : P ∈ posts := by
    rw [hsplit]
    exact List.mem_append_right _ (List.mem_cons_of_mem _ hP)
  have hProot : P.reply_root = none := hcoh P hPmem Q hQmem hQroot
  have hndPosts : posts.Nodup := List.Nodup.of_map Post.uri hnd
  obtain ⟨la, z, lb', heq, hz, hla⟩ :=
    exists_first_split (fun w => w.reply_root = some P.uri) (l1 ++ [Q])
      ⟨Q, List.mem_append_right _ (List.mem_singleton_self _), hQroot⟩
  have hposts' : posts = la ++ z :: (lb' ++ l2) := by
    rw [hsplit, show l1 ++ Q :: l2 = (l1 ++ [Q]) ++ l2 by simp, heq]
    simp
  have hlaSub : ∀ w ∈ la, w ∈ posts := by
    intro w hw
    rw [hposts']
    exact List.mem_append_left _ hw
  have hzmem : z ∈ posts := by
    rw [hposts']
    exact List.mem_append_right _ (List.mem_cons_self _ _)
  have hlaNe : ∀ w ∈ la, ¬ w = P := by
    intro w hw hwP
    subst hwP
    have hwl1Q : w ∈ l1 ++ [Q] := by
      rw [heq]
      exact List.mem_append_left _ hw
    rcases List.mem_append.mp hwl1Q with hw1 | hwQ
    · rw [hsplit] at hndPosts
      have hdisj := (List.nodup_append.mp hndPosts).2.2
      exact hdisj hw1 (List.mem_cons_of_mem _ hP)
    · rcases List.mem_singleton.mp hwQ with rfl
      rw [hQroot] at hProot
      cases hProot
  have key := organize_process posts P hnd hcoh hPmem hProot huri la z (lb' ++ l2)
    ⟨[], []⟩ hlaSub hla hlaNe hzmem hz rfl (fun R _ _ => rfl)
  rw [← hposts'] at key
  exact key

/-- Witness for the amended C1: the scenario batch in reverse-chronological
feed order [B, C, A] (replies before root).  The theorem applies with Q := B,
P := A, and the assembler indeed yields the one thread [A, B, C] sorted by
created_at. -/
theorem C1_replies_join_root_thread_witness :
    (∃ t ∈ organize_threads [scenB, scenC, scenA], scenA ∈ t.posts ∧
      ∀ R ∈ [scenB, scenC, scenA], R.reply_root = some scenA.uri → R ∈ t.posts) ∧
    organize_threads [scenB, scenC, scenA] = [⟨.thread, [scenA, scenB, scenC]⟩] := by
  constructor
  · exact C1_replies_join_root_thread [scenB, scenC, scenA] [] [scenC, scenA] scenB scenA
      rfl rfl (List.mem_cons_of_mem _ (List.mem_singleton_self _)) (by decide)
      (by decide)
      (by
        intro x hx y hy hyx
        fin_cases hx <;> fin_cases hy <;>
          first
            | rfl
            | (exact absurd hyx (by decide)))
  · rfl

/-! Claim C3: order dependence of the Thread Assembler. -/

/-- C3 counterexample: permuting the two-post batch root-plus-reply changes
thread membership.  With the reply first the assembler builds the thread
[A, B]; with the root first it emits A as a single and drops B entirely, so B
is a member of some thread in one order and of none in the other. -/
theorem C3_counterexample :
    organize_threads [scenA, scenB] = [⟨.single, [scenA]⟩] ∧
    organize_threads [scenB, scenA] = [⟨.thread, [scenA, scenB]⟩] ∧
    (∃ t ∈ organize_threads [scenB, scenA], scenB ∈ t.posts) ∧
    ¬ ∃ t ∈ organize_threads [scenA, scenB], scenB ∈ t.posts := by
  refine ⟨rfl, rfl, ?_, ?_⟩
  · refine ⟨⟨.thread, [scenA, scenB]⟩, ?_,
      List.mem_cons_of_mem _ (List.mem_singleton_self _)⟩
    rw [show organize_threads [scenB, scenA] = [⟨.thread, [scenA, scenB]⟩] from rfl]
    exact List.mem_singleton_self _
  · rintro ⟨t, ht, hB⟩
    rw [show organize_threads [scenA, scenB] = [⟨.single, [scenA]⟩] from rfl] at ht
    rcases List.mem_singleton.mp ht with rfl
    rcases List.mem_singleton.mp hB with hBA
    exact absurd (congrArg Post.uri hBA) (by decide)

/-- Batch condition under which the assembler's output is order-independent:
no post carries a truthy reply_root equal to some batch post's uri (every
reply link points outside the batch). -/
def noBatchRoots (posts : List Post) : Prop :=
  ∀ p ∈ posts, ¬ (truthy p.reply_root = true ∧
    ∃ q ∈ posts, q.uri = p.reply_root.getD "")

theorem organize_fold_all_singles (posts : List Post)
    (hnb : noBatchRoots posts) :
    ∀ (l : List Post) (st : OrganizeState),
      (∀ w ∈ l, w ∈ posts) → ((l.map Post.uri).Nodup) →
      (∀ w ∈ l, st.seen.contains w.uri = false) →
      (l.foldl (organizeStep posts) st).threads =
        st.threads ++ l.map (fun p => ⟨.single, [p]⟩) := by
  intro l
  induction l with
  | nil => intro st _ _ _; simp
  | cons p tail ih =>
    intro st hsub hlnd hseen
    rw [List.foldl_cons]
    have hpmem := hsub p (List.mem_cons_self _ _)
    have hstep : organizeStep posts st p =
        { seen := p.uri :: st.seen, threads := st.threads ++ [⟨.single, [p]⟩] } := by
      unfold organizeStep
      rw [if_neg (by
        intro h
        rw [hseen p (List.mem_cons_self _ _)] at h
        cases h)]
      by_cases ht : truthy p.reply_root = true
      · rw [if_pos ht]
        cases hl : postsByUri posts (p.reply_root.getD "") with
        | some rp =>
          obtain ⟨hrpmem, hrpuri⟩ := postsByUri_mem hl
          exact absurd ⟨ht, rp, hrpmem, hrpuri⟩ (hnb p hpmem)
        | none => rfl
      · rw [if_neg ht]
    rw [hstep]
    rw [ih _ (fun w hw => hsub w (List.mem_cons_of_mem _ hw))
      ((List.nodup_cons.mp (by simpa using hlnd)).2)
      (by
        intro w hw
        rw [contains_false_iff]
        intro hm
        rcases List.mem_cons.mp hm with hm | hm
        · exact (List.nodup_cons.mp (by simpa using hlnd)).1
            (hm ▸ List.mem_map_of_mem Post.uri hw)
        · exact (contains_false_iff _ _).mp
            (hseen w (List.mem_cons_of_mem _ hw)) hm)]
    simp

theorem organize_threads_all_singles (posts : List Post)
    (hnd : (posts.map Post.uri).Nodup) (hnb : noBatchRoots posts) :
    organize_threads posts = posts.map (fun p => ⟨.single, [p]⟩) := by
  have := organize_fold_all_singles posts hnb posts ⟨[], []⟩
    (fun w hw => hw) hnd (fun w _ => rfl)
  simpa [organize_threads] using this

/-- C3 (amended): the Thread Assembler is order-independent in thread
membership for batches with no in-batch reply link — when no post's
reply_root is the uri of a batch post (and uris are distinct), every post
becomes its own single thread and any permutation of the batch yields a
permutation of the same threads.  In general the property fails:
C3_counterexample permutes a root-and-reply batch and membership changes,
with the reply even dropped from the output in the root-first order. -/
theorem C3_order_independent_without_batch_roots
    (posts posts' : List Post)
    (hperm : posts.Perm posts')
    (hnd : (posts.map Post.uri).Nodup)
    (hnb : noBatchRoots posts) :
    (organize_threads posts).Perm (organize_threads posts') := by
  have hnd' : (posts'.map Post.uri).Nodup := (hperm.map Post.uri).nodup hnd
  have hnb' : noBatchRoots posts' := by
    rintro p hp ⟨ht, q, hq, hu⟩
    exact hnb p (hperm.mem_iff.mpr hp) ⟨ht, q, hperm.mem_iff.mpr hq, hu⟩
  rw [organize_threads_all_singles posts hnd hnb,
    organize_threads_all_singles posts' hnd' hnb']
  exact hperm.map _

/-- Standalone post used in the C3 witness. -/
def scenD : Post := samplePost ("at://d") ("z") ("4") none none

/-- Witness for the amended C3 at a concrete input: swapping two standalone
posts permutes the assembled threads. -/
theorem C3_order_independent_witness :
    (organize_threads [scenA, scenD]).Perm (organize_threads [scenD, scenA]) :=
  C3_order_independent_without_batch_roots [scenA, scenD] [scenD, scenA]
    (List.Perm.swap scenD scenA []) (by decide)
    (by
      intro p hp h
      fin_cases hp <;> exact absurd h.1 (by decide))

/-! Claims C2 and C4: structure of the Thread Consolidator.  The grouping
dict roots_to_threads is related to the flat list of favorite-reply
occurrences of the thread list, and the scan and apply passes are
characterized through that bridge. -/

/-- Flatten an insertion-ordered grouping dict back into (key, entry) pairs. -/
def flatEntries {β : Type} (m : List (String × List β)) : List (String × β) :=
  m.flatMap (fun g => g.2.map (fun e => (g.1, e)))

theorem mem_flatEntries {β : Type} {m : List (String × List β)} {k : String} {e : β} :
    (k, e) ∈ flatEntries m ↔ ∃ es, (k, es) ∈ m ∧ e ∈ es := by
  unfold flatEntries
  rw [List.mem_flatMap]
  constructor
  · rintro ⟨g, hg, hmem⟩
    obtain ⟨e', he', heq⟩ := List.mem_map.mp hmem
    obtain ⟨h1, h2⟩ := Prod.mk.injEq .. ▸ heq
    refine ⟨g.2, ?_, h2 ▸ he'⟩
    rw [← h1]
    exact hg
  · rintro ⟨es, hes, he⟩
    exact ⟨(k, es), hes, List.mem_map.mpr ⟨e, he, rfl⟩⟩

theorem flatEntries_addEntry {β : Type} (m : List (String × List β)) (k : String) (e : β) :
    (flatEntries (addEntry m k e)).Perm (flatEntries m ++ [(k, e)]) := by
  induction m with
  | nil => simp [addEntry, flatEntries]
  | cons g rest ih =>
    obtain ⟨k', es⟩ := g
    by_cases h : (k' == k) = true
    · rw [show addEntry ((k', es) :: rest) k e = (k', es ++ [e]) :: rest by
        simp [addEntry, h]]
      have hk : k' = k := by simpa using h
      subst hk
      simp only [flatEntries, List.flatMap_cons, List.map_append, List.map_cons,
        List.map_nil, List.append_assoc, List.singleton_append]
      apply List.Perm.append_left
      exact (List.perm_append_singleton _ _).symm
    · rw [show addEntry ((k', es) :: rest) k e = (k', es) :: addEntry rest k e by
        simp [addEntry, h]]
      simp only [flatEntries, List.flatMap_cons] at ih ⊢
      rw [List.append_assoc]
      exact List.Perm.append_left _ ih

theorem flatEntries_foldl_addEntry {β : Type} :
    ∀ (O : List (String × β)) (m : List (String × List β)),
      (flatEntries (O.foldl (fun m kv => addEntry m kv.1 kv.2) m)).Perm
        (flatEntries m ++ O) := by
  intro O
  induction O with
  | nil => intro m; simp
  | cons kv rest ih =>
    intro m
    rw [List.foldl_cons]
    refine (ih _).trans ?_
    refine ((flatEntries_addEntry m kv.1 kv.2).append_right rest).trans ?_
    rw [List.append_assoc]
    exact List.Perm.refl _

/-- Flat list of favorite reply occurrences (root key, thread index, post) in
thread-then-post order — exactly the pairs the lines 270-280 loop inserts. -/
def favRootOccurrences (FAV : List String) (threads : List Thread) :
    List (String × (Nat × Post)) :=
  threads.enum.flatMap (fun it =>
    (it.2.posts.filter (fun p => FAV.contains p.author_handle && truthy p.reply_root)).map
      (fun p => (p.reply_root.getD "", (it.1, p))))

theorem mem_favRootOccurrences {FAV : List String} {threads : List Thread}
    {r : String} {i : Nat} {p : Post} :
    (r, (i, p)) ∈ favRootOccurrences FAV threads ↔
      ∃ t, threads.get? i = some t ∧ p ∈ t.posts ∧
        (FAV.contains p.author_handle && truthy p.reply_root) = true ∧
        p.reply_root.getD "" = r := by
  unfold favRootOccurrences
  rw [List.mem_flatMap]
  constructor
  · rintro ⟨it, hit, hmem⟩
    obtain ⟨q, hq, heq⟩ := List.mem_map.mp hmem
    obtain ⟨h1, h2, h3⟩ : q.reply_root.getD "" = r ∧ it.1 = i ∧ q = p := by
      simpa [Prod.ext_iff] using heq
    subst h3
    obtain ⟨hqmem, hqcond⟩ := List.mem_filter.mp hq
    refine ⟨it.2, ?_, hqmem, hqcond, h1⟩
    have := List.mem_enum_iff_get?.mp hit
    rw [← h2]
    simpa using this
  · rintro ⟨t, hget, hp, hcond, hkey⟩
    refine ⟨(i, t), List.mem_enum_iff_get?.mpr (by simpa using hget), ?_⟩
    exact List.mem_map.mpr ⟨p, List.mem_filter.mpr ⟨hp, hcond⟩, by rw [hkey]⟩

theorem rootsToThreads_eq_fold (FAV : List String) (threads : List Thread) :
    rootsToThreads FAV threads =
      (favRootOccurrences FAV threads).foldl (fun m kv => addEntry m kv.1 kv.2) [] := by
  have inner : ∀ (i : Nat) (posts : List Post) (m : List (String × List (Nat × Post))),
      posts.foldl
        (fun m p =>
          if FAV.contains p.author_handle && truthy p.reply_root then
            addEntry m (p.reply_root.getD "") (i, p)
          else m) m =
      ((posts.filter (fun p => FAV.contains p.author_handle && truthy p.reply_root)).map
        (fun p => (p.reply_root.getD "", (i, p)))).foldl
        (fun m kv => addEntry m kv.1 kv.2) m := by
    intro i posts
    induction posts with
    | nil => intro m; rfl
    | cons p rest ih =>
      intro m
      by_cases h : (FAV.contains p.author_handle && truthy p.reply_root) = true
      · simp only [List.foldl_cons, List.filter_cons, h, if_pos h, List.map_cons]
        exact ih _
      · simp only [List.foldl_cons, List.filter_cons, h, if_neg h, Bool.false_eq_true,
          List.map_cons]
        exact ih _
  have outer : ∀ (l : List (Nat × Thread)) (m : List (String × List (Nat × Post))),
      l.foldl
        (fun m it =>
          it.2.posts.foldl
            (fun m p =>
              if FAV.contains p.author_handle && truthy p.reply_root then
                addEntry m (p.reply_root.getD "") (it.1, p)
              else m) m) m =
      (l.flatMap (fun it =>
        (it.2.posts.filter (fun p => FAV.contains p.author_handle && truthy p.reply_root)).map
          (fun p => (p.reply_root.getD "", (it.1, p))))).foldl
        (fun m kv => addEntry m kv.1 kv.2) m := by
    intro l
    induction l with
    | nil => intro m; rfl
    | cons it rest ih =>
      intro m
      simp only [List.foldl_cons, List.flatMap_cons, List.foldl_append]
      rw [inner it.1 it.2.posts m]
      exact ih _
  unfold rootsToThreads favRootOccurrences
  exact outer threads.enum []

theorem rootsToThreads_flatEntries_perm (FAV : List String) (threads : List Thread) :
    (flatEntries (rootsToThreads FAV threads)).Perm (favRootOccurrences FAV threads) := by
  rw [rootsToThreads_eq_fold]
  simpa [flatEntries] using
    flatEntries_foldl_addEntry (favRootOccurrences FAV threads) []

theorem addEntry_keys {β : Type} :
    ∀ (m : List (String × List β)) (k : String) (e : β),
      (k ∈ m.map Prod.fst ∧ (addEntry m k e).map Prod.fst = m.map Prod.fst) ∨
        (k ∉ m.map Prod.fst ∧
          (addEntry m k e).map Prod.fst = m.map Prod.fst ++ [k]) := by
  intro m
  induction m with
  | nil =>
    intro k e
    exact Or.inr ⟨by simp, rfl⟩
  | cons g rest ih =>
    intro k e
    obtain ⟨k', es⟩ := g
    by_cases h : (k' == k) = true
    · left
      have hk : k' = k := by simpa using h
      subst hk
      constructor
      · simp
      · rw [show addEntry ((k', es) :: rest) k' e = (k', es ++ [e]) :: rest by
          simp [addEntry]]
        simp
    · rw [show addEntry ((k', es) :: rest) k e = (k', es) :: addEntry rest k e by
        simp [addEntry, h]]
      rcases ih k e with ⟨hin, heq⟩ | ⟨hnin, heq⟩
      · left
        exact ⟨by simp [hin], by simp [heq]⟩
      · right
        constructor
        · intro hmem
          rw [List.map_cons] at hmem
          rcases List.mem_cons.mp hmem with h' | h'
          · exact absurd (by simp [h'] : (k' == k) = true) h
          · exact hnin h'
        · simp [heq]

theorem addEntry_keys_nodup {β : Type} {m : List (String × List β)} (k : String) (e : β)
    (h : (m.map Prod.fst).Nodup) : ((addEntry m k e).map Prod.fst).Nodup := by
  rcases addEntry_keys m k e with ⟨_, heq⟩ | ⟨hnin, heq⟩
  · rw [heq]; exact h
  · rw [heq]
    exact List.Nodup.append h (List.nodup_singleton k)
      (by
        intro x hx hx'
        rcases List.mem_singleton.mp hx' with rfl
        exact hnin hx)

theorem rootsToThreads_keys_nodup (FAV : List String) (threads : List Thread) :
    ((rootsToThreads FAV threads).map Prod.fst).Nodup := by
  rw [rootsToThreads_eq_fold]
  exact foldl_invariant (fun m kv => addEntry m kv.1 kv.2)
    (fun m => (m.map Prod.fst).Nodup) (favRootOccurrences FAV threads) []
    List.nodup_nil (fun m kv _ hm => addEntry_keys_nodup kv.1 kv.2 hm)

theorem keys_nodup_lookup_unique {β : Type} :
    ∀ {m : List (String × List β)}, (m.map Prod.fst).Nodup →
      ∀ {k : String} {es es' : List β}, (k, es) ∈ m → (k, es') ∈ m → es = es' := by
  intro m
  induction m with
  | nil => intro _ k es es' h; cases h
  | cons g rest ih =>
    intro hnd k es es' h1 h2
    rw [List.map_cons] at hnd
    have hnd' := List.nodup_cons.mp hnd
    rcases List.mem_cons.mp h1 with rfl | h1'
    · rcases List.mem_cons.mp h2 with h2h | h2'
      · exact (Prod.mk.injEq .. ▸ h2h.symm).2
      · exact absurd (List.mem_map_of_mem Prod.fst h2') (by simpa using hnd'.1)
    · rcases List.mem_cons.mp h2 with rfl | h2'
      · exact absurd (List.mem_map_of_mem Prod.fst h1') (by simpa using hnd'.1)
      · exact ih hnd'.2 h1' h2'

/-! Scan characterization: indices removed and kept by the consolidation scan. -/

theorem scanStep_fst_mono (st : List Nat × List (Nat × List Post))
    (g : String × List (Nat × Post)) : ∀ x ∈ st.1, x ∈ (scanStep st g).1 := by
  intro x hx
  unfold scanStep
  by_cases hlen : g.2.length ≤ 1
  · rw [if_pos hlen]; exact hx
  · rw [if_neg hlen]
    cases hs : sortOn (fun (e : Nat × Post) => e.2.created_at.getD "") g.2 with
    | nil => exact hx
    | cons first tail =>
      simp only []
      by_cases he : ((tail.filter (fun e => !(e.1 == first.1))).isEmpty) = true
      · rw [if_pos he]
        exact List.mem_append_left _ hx
      · rw [if_neg he]
        exact List.mem_append_left _ hx

theorem scanFold_fst_mono :
    ∀ (groups : List (String × List (Nat × Post))) (st : List Nat × List (Nat × List Post)),
      ∀ x ∈ st.1, x ∈ (groups.foldl scanStep st).1 := by
  intro groups
  induction groups with
  | nil => intro st x hx; exact hx
  | cons g rest ih =>
    intro st x hx
    rw [List.foldl_cons]
    exact ih _ x (scanStep_fst_mono st g x hx)

/-- Default entry for headD on sorted entry lists. -/
def dummyEntry : Nat × Post := (0, samplePost ("") ("") ("") none none)

/-- Thread index kept for a root group: the index of its chronologically first
entry. -/
def firstIdxOf (es : List (Nat × Post)) : Nat :=
  ((sortOn (fun (e : Nat × Post) => e.2.created_at.getD "") es).headD dummyEntry).1

/-- Every entry of a multi-entry group whose index differs from the group's
first index is scheduled for removal by the scan. -/
theorem scan_removes_nonfirst :
    ∀ (groups : List (String × List (Nat × Post))) (st : List Nat × List (Nat × List Post))
      (g : String × List (Nat × Post)), g ∈ groups → 2 ≤ g.2.length →
      ∀ e ∈ g.2, ¬ e.1 = firstIdxOf g.2 → e.1 ∈ (groups.foldl scanStep st).1 := by
  intro groups
  induction groups with
  | nil => intro st g hg; cases hg
  | cons g0 rest ih =>
    intro st g hg hlen e he hne
    rw [List.foldl_cons]
    rcases List.mem_cons.mp hg with rfl | hg'
    · apply scanFold_fst_mono rest
      unfold scanStep
      rw [if_neg (by omega)]
      cases hs : sortOn (fun (e : Nat × Post) => e.2.created_at.getD "") g.2 with
      | nil =>
        exfalso
        have := sortOn_length (fun (e : Nat × Post) => e.2.created_at.getD "") g.2
        rw [hs] at this
        simp at this
        omega
      | cons first tail =>
        simp only []
        have hfi : firstIdxOf g.2 = first.1 := by
          unfold firstIdxOf
          rw [hs]
          rfl
        have hesort : e ∈ first :: tail := by
          rw [← hs]
          exact (sortOn_mem _ _ e).mpr he
        rcases List.mem_cons.mp hesort with rfl | hetail
        · exact absurd (by rw [hfi]) hne
        · have hmoved : e ∈ tail.filter (fun x => !(x.1 == first.1)) :=
            List.mem_filter.mpr ⟨hetail, by
              rw [hfi] at hne
              simp [hne]⟩
          by_cases hemp : ((tail.filter (fun x => !(x.1 == first.1))).isEmpty) = true
          · exfalso
            rw [List.isEmpty_iff] at hemp
            rw [hemp] at hmoved
            cases hmoved
          · rw [if_neg hemp]
            exact List.mem_append_right _ (List.mem_map.mpr ⟨e, hmoved, rfl⟩)
    · exact ih _ g hg' hlen e he hne

/-- When every group's entries share one thread index, the scan finds nothing
to move and returns the empty removal set and no consolidations. -/
theorem scan_no_moves :
    ∀ (groups : List (String × List (Nat × Post))),
      (∀ g ∈ groups, ∀ e1 ∈ g.2, ∀ e2 ∈ g.2, e1.1 = e2.1) →
      ∀ st, groups.foldl scanStep st = st := by
  intro groups
  induction groups with
  | nil => intro _ st; rfl
  | cons g rest ih =>
    intro h st
    rw [List.foldl_cons]
    have hstep : scanStep st g = st := by
      unfold scanStep
      by_cases hlen : g.2.length ≤ 1
      · rw [if_pos hlen]
      · rw [if_neg hlen]
        cases hs : sortOn (fun (e : Nat × Post) => e.2.created_at.getD "") g.2 with
        | nil => rfl
        | cons first tail =>
          simp only []
          have hfmem : first ∈ g.2 := (sortOn_mem _ _ first).mp (by
            rw [hs]
            exact List.mem_cons_self _ _)
          have hfilter : tail.filter (fun x => !(x.1 == first.1)) = [] := by
            rw [List.filter_eq_nil]
            intro x hx
            have hxmem : x ∈ g.2 := (sortOn_mem _ _ x).mp (by
              rw [hs]
              exact List.mem_cons_of_mem _ hx)
            have := h g (List.mem_cons_self _ _) x hxmem first hfmem
            simp [this]
          rw [hfilter]
          simp
    rw [hstep]
    exact ih (fun g' hg' => h g' (List.mem_cons_of_mem _ hg')) st

/-- When every root group's entries share one thread index, the consolidator
returns its input unchanged. -/
theorem consolidate_of_sameGroups (FAV : List String)
    (f : String → Option SingleFetch) (threads : List Thread)
    (h : ∀ g ∈ rootsToThreads FAV threads, ∀ e1 ∈ g.2, ∀ e2 ∈ g.2, e1.1 = e2.1) :
    consolidate_thread_participations FAV f threads = threads := by
  have hscan : consolidationScan (rootsToThreads FAV threads) = ([], []) :=
    scan_no_moves (rootsToThreads FAV threads) h ([], [])
  unfold consolidate_thread_participations
  rw [hscan]
  rfl

/-! Transport of favorite-reply occurrences through the apply pass: storing
thread_replies never changes a post's author or reply_root, so occurrences of
the applied list map back to occurrences of the input at the same index. -/

theorem setThreadReplies_shape (FAV : List String) (ap : List Post) :
    ∀ (l : List Post), ∀ p' ∈ setThreadRepliesOnFirstFav FAV ap l,
      ∃ p ∈ l, p'.author_handle = p.author_handle ∧ p'.reply_root = p.reply_root := by
  intro l
  induction l with
  | nil => intro p' h; cases h
  | cons p ps ih =>
    intro p' h
    unfold setThreadRepliesOnFirstFav at h
    by_cases hc : (FAV.contains p.author_handle && truthy p.reply_root) = true
    · rw [if_pos hc] at h
      rcases List.mem_cons.mp h with rfl | h'
      · exact ⟨p, List.mem_cons_self _ _, by simp, by simp⟩
      · exact ⟨p', List.mem_cons_of_mem _ h', rfl, rfl⟩
    · rw [if_neg hc] at h
      rcases List.mem_cons.mp h with rfl | h'
      · exact ⟨p', List.mem_cons_self _ _, rfl, rfl⟩
      · obtain ⟨q, hq, hh⟩ := ih p' h'
        exact ⟨q, List.mem_cons_of_mem _ hq, hh⟩

theorem applyFold_shape (FAV : List String) (f : String → Option SingleFetch)
    (uris : List String) :
    ∀ (C : List (Nat × List Post)) (ths : List Thread) (i : Nat) (t' : Thread),
      (C.foldl (applyStep FAV f uris) ths).get? i = some t' →
      ∃ t, ths.get? i = some t ∧
        ∀ p' ∈ t'.posts, ∃ p ∈ t.posts,
          p'.author_handle = p.author_handle ∧ p'.reply_root = p.reply_root := by
  intro C
  induction C with
  | nil =>
    intro ths i t' h
    exact ⟨t', h, fun p' hp' => ⟨p', hp', rfl, rfl⟩⟩
  | cons c rest ih =>
    intro ths i t' h
    rw [List.foldl_cons] at h
    obtain ⟨tm, hm, hshape⟩ := ih _ i t' h
    unfold applyStep at hm
    rw [modifyIdx_get?] at hm
    by_cases hi : i = c.1
    · rw [if_pos hi] at hm
      cases hg : ths.get? i with
      | none => rw [hg] at hm; cases hm
      | some t0 =>
        rw [hg] at hm
        have htm : tm = { t0 with
            posts := setThreadRepliesOnFirstFav FAV
              (c.2.map (annotateReply f uris)) t0.posts } := by
          exact (Option.some.inj hm).symm
        refine ⟨t0, rfl, ?_⟩
        intro p' hp'
        obtain ⟨pm, hpm, h1, h2⟩ := hshape p' hp'
        rw [htm] at hpm
        obtain ⟨p0, hp0, h3, h4⟩ :=
          setThreadReplies_shape FAV (c.2.map (annotateReply f uris)) t0.posts pm hpm
        exact ⟨p0, hp0, h1.trans h3, h2.trans h4⟩
    · rw [if_neg hi] at hm
      exact ⟨tm, hm, hshape⟩

/-- Two distinct members force length at least two. -/
theorem two_le_length_of_mem_ne {α : Type} {l : List α} {a b : α}
    (ha : a ∈ l) (hb : b ∈ l) (hne : ¬ a = b) : 2 ≤ l.length := by
  cases l with
  | nil => cases ha
  | cons x xs =>
    cases xs with
    | nil =>
      rcases List.mem_singleton.mp ha with rfl
      rcases List.mem_singleton.mp hb with rfl
      exact absurd rfl hne
    | cons y ys => simp

/-- Two favorite replies into the same root sitting in different threads force
one of the two thread indices onto the scan's removal list. -/
theorem occ_idx_in_removals (FAV : List String) (ts : List Thread)
    {r : String} {i j : Nat} {p q : Post}
    (h1 : (r, (i, p)) ∈ favRootOccurrences FAV ts)
    (h2 : (r, (j, q)) ∈ favRootOccurrences FAV ts)
    (hne : ¬ i = j) :
    i ∈ (consolidationScan (rootsToThreads FAV ts)).1 ∨
      j ∈ (consolidationScan (rootsToThreads FAV ts)).1 := by
  have hf1 := (rootsToThreads_flatEntries_perm FAV ts).mem_iff.mpr h1
  have hf2 := (rootsToThreads_flatEntries_perm FAV ts).mem_iff.mpr h2
  obtain ⟨es1, hes1, he1⟩ := mem_flatEntries.mp hf1
  obtain ⟨es2, hes2, he2⟩ := mem_flatEntries.mp hf2
  obtain rfl : es1 = es2 :=
    keys_nodup_lookup_unique (rootsToThreads_keys_nodup FAV ts) hes1 hes2
  have hlen : 2 ≤ es1.length :=
    two_le_length_of_mem_ne he1 he2 (by
      intro h
      exact hne (congrArg Prod.fst h))
  by_cases hi : i = firstIdxOf es1
  · right
    have hj : ¬ (j, q).1 = firstIdxOf ((r, es1) : String × List (Nat × Post)).2 := by
      intro h
      exact hne (hi.trans h.symm)
    exact scan_removes_nonfirst (rootsToThreads FAV ts) ([], []) (r, es1) hes1 hlen
      (j, q) he2 hj
  · left
    exact scan_removes_nonfirst (rootsToThreads FAV ts) ([], []) (r, es1) hes1 hlen
      (i, p) he1 hi

/-- All favorite replies into one root live in a single thread of the list. -/
def SameIdx (FAV : List String) (ts : List Thread) : Prop :=
  ∀ r i p j q, (r, (i, p)) ∈ favRootOccurrences FAV ts →
    (r, (j, q)) ∈ favRootOccurrences FAV ts → i = j

theorem sameGroups_of_sameIdx (FAV : List String) (ts : List Thread)
    (h : SameIdx FAV ts) :
    ∀ g ∈ rootsToThreads FAV ts, ∀ e1 ∈ g.2, ∀ e2 ∈ g.2, e1.1 = e2.1 := by
  intro g hg e1 he1 e2 he2
  have h1 : (g.1, e1) ∈ flatEntries (rootsToThreads FAV ts) :=
    mem_flatEntries.mpr ⟨g.2, hg, he1⟩
  have h2 : (g.1, e2) ∈ flatEntries (rootsToThreads FAV ts) :=
    mem_flatEntries.mpr ⟨g.2, hg, he2⟩
  have o1 := (rootsToThreads_flatEntries_perm FAV ts).mem_iff.mp h1
  have o2 := (rootsToThreads_flatEntries_perm FAV ts).mem_iff.mp h2
  exact h g.1 e1.1 e1.2 e2.1 e2.2 o1 o2

/-- The consolidator's output satisfies SameIdx: per root, at most one output
thread still carries favorite replies to it. -/
theorem consolidate_sameIdx (FAV : List String) (f : String → Option SingleFetch)
    (ts : List Thread) :
    SameIdx FAV (consolidate_thread_participations FAV f ts) := by
  intro r i p j q h1 h2
  by_contra hne
  by_cases hscan : ((consolidationScan (rootsToThreads FAV ts)).1.isEmpty) = true
  · have hout : consolidate_thread_participations FAV f ts =
        (consolidationScan (rootsToThreads FAV ts)).2.foldl
          (applyStep FAV f (ts.flatMap (fun t => t.posts.map Post.uri))) ts := by
      unfold consolidate_thread_participations
      rw [if_pos hscan]
    rw [hout] at h1 h2
    obtain ⟨t1, hget1, hp1, hcond1, hkey1⟩ := mem_favRootOccurrences.mp h1
    obtain ⟨t2, hget2, hp2, hcond2, hkey2⟩ := mem_favRootOccurrences.mp h2
    obtain ⟨s1, hs1, hsh1⟩ := applyFold_shape FAV f _ _ ts i t1 hget1
    obtain ⟨s2, hs2, hsh2⟩ := applyFold_shape FAV f _ _ ts j t2 hget2
    obtain ⟨p0, hp0, ha1, hr1⟩ := hsh1 p hp1
    obtain ⟨q0, hq0, ha2, hr2⟩ := hsh2 q hp2
    have o1 : (r, (i, p0)) ∈ favRootOccurrences FAV ts :=
      mem_favRootOccurrences.mpr ⟨s1, hs1, hp0,
        by rw [← ha1, ← hr1]; exact hcond1, by rw [← hr1]; exact hkey1⟩
    have o2 : (r, (j, q0)) ∈ favRootOccurrences FAV ts :=
      mem_favRootOccurrences.mpr ⟨s2, hs2, hq0,
        by rw [← ha2, ← hr2]; exact hcond2, by rw [← hr2]; exact hkey2⟩
    rw [List.isEmpty_iff] at hscan
    rcases occ_idx_in_removals FAV ts o1 o2 hne with hmem | hmem
    · rw [hscan] at hmem; cases hmem
    · rw [hscan] at hmem; cases hmem
  · have hout : consolidate_thread_participations FAV f ts =
        ((((consolidationScan (rootsToThreads FAV ts)).2.foldl
            (applyStep FAV f (ts.flatMap (fun t => t.posts.map Post.uri)))
            ts).enum.filter
          (fun it => !((consolidationScan (rootsToThreads FAV ts)).1.contains
            it.1))).map (fun it => it.2)) := by
      unfold consolidate_thread_participations
      rw [if_neg hscan]
    rw [hout] at h1 h2
    obtain ⟨t1, hget1, hp1, hcond1, hkey1⟩ := mem_favRootOccurrences.mp h1
    obtain ⟨t2, hget2, hp2, hcond2, hkey2⟩ := mem_favRootOccurrences.mp h2
    rw [List.get?_map] at hget1 hget2
    cases hepi : ((((consolidationScan (rootsToThreads FAV ts)).2.foldl
        (applyStep FAV f (ts.flatMap (fun t => t.posts.map Post.uri)))
        ts).enum.filter
      (fun it => !((consolidationScan (rootsToThreads FAV ts)).1.contains
        it.1)))).get? i with
    | none => rw [hepi] at hget1; cases hget1
    | some pri =>
    cases hepj : ((((consolidationScan (rootsToThreads FAV ts)).2.foldl
        (applyStep FAV f (ts.flatMap (fun t => t.posts.map Post.uri)))
        ts).enum.filter
      (fun it => !((consolidationScan (rootsToThreads FAV ts)).1.contains
        it.1)))).get? j with
    | none => rw [hepj] at hget2; cases hget2
    | some prj =>
    rw [hepi] at hget1
    rw [hepj] at hget2
    have ht1 : pri.2 = t1 := Option.some.inj hget1
    have ht2 : prj.2 = t2 := Option.some.inj hget2
    have hmemi := List.get?_mem hepi
    have hmemj := List.get?_mem hepj
    obtain ⟨hi_enum, hi_q⟩ := List.mem_filter.mp hmemi
    obtain ⟨hj_enum, hj_q⟩ := List.mem_filter.mp hmemj
    have happi : ((consolidationScan (rootsToThreads FAV ts)).2.foldl
        (applyStep FAV f (ts.flatMap (fun t => t.posts.map Post.uri)))
        ts).get? pri.1 = some pri.2 := by
      have := List.mem_enum_iff_get?.mp hi_enum
      simpa using this
    have happj : ((consolidationScan (rootsToThreads FAV ts)).2.foldl
        (applyStep FAV f (ts.flatMap (fun t => t.posts.map Post.uri)))
        ts).get? prj.1 = some prj.2 := by
      have := List.mem_enum_iff_get?.mp hj_enum
      simpa using this
    have hne' : ¬ pri.1 = prj.1 := by
      intro heq
      apply hne
      have hnodup : ((((consolidationScan (rootsToThreads FAV ts)).2.foldl
          (applyStep FAV f (ts.flatMap (fun t => t.posts.map Post.uri)))
          ts).enum.filter
        (fun it => !((consolidationScan (rootsToThreads FAV ts)).1.contains
          it.1))).map Prod.fst).Nodup := by
        apply List.Sublist.nodup
        · exact List.Sublist.map Prod.fst (List.filter_sublist _)
        · exact List.nodup_enum_map_fst _
      have hgi : ((((consolidationScan (rootsToThreads FAV ts)).2.foldl
          (applyStep FAV f (ts.flatMap (fun t => t.posts.map Post.uri)))
          ts).enum.filter
        (fun it => !((consolidationScan (rootsToThreads FAV ts)).1.contains
          it.1))).map Prod.fst).get? i = some pri.1 := by
        rw [List.get?_map, hepi]
        rfl
      have hgj : ((((consolidationScan (rootsToThreads FAV ts)).2.foldl
          (applyStep FAV f (ts.flatMap (fun t => t.posts.map Post.uri)))
          ts).enum.filter
        (fun it => !((consolidationScan (rootsToThreads FAV ts)).1.contains
          it.1))).map Prod.fst).get? j = some prj.1 := by
        rw [List.get?_map, hepj]
        rfl
      obtain ⟨hlt, _⟩ := List.get?_eq_some.mp hgi
      exact List.get?_inj hlt hnodup (by rw [hgi, hgj, heq])
    obtain ⟨s1, hs1, hsh1⟩ := applyFold_shape FAV f _ _ ts pri.1 pri.2 happi
    obtain ⟨s2, hs2, hsh2⟩ := applyFold_shape FAV f _ _ ts prj.1 prj.2 happj
    obtain ⟨p0, hp0, ha1, hr1⟩ := hsh1 p (by rw [ht1]; exact hp1)
    obtain ⟨q0, hq0, ha2, hr2⟩ := hsh2 q (by rw [ht2]; exact hp2)
    have o1 : (r, (pri.1, p0)) ∈ favRootOccurrences FAV ts :=
      mem_favRootOccurrences.mpr ⟨s1, hs1, hp0,
        by rw [← ha1, ← hr1]; exact hcond1, by rw [← hr1]; exact hkey1⟩
    have o2 : (r, (prj.1, q0)) ∈ favRootOccurrences FAV ts :=
      mem_favRootOccurrences.mpr ⟨s2, hs2, hq0,
        by rw [← ha2, ← hr2]; exact hcond2, by rw [← hr2]; exact hkey2⟩
    rcases occ_idx_in_removals FAV ts o1 o2 hne' with hmem | hmem
    · exact absurd (by simpa using hmem) (by simpa using hi_q)
    · exact absurd (by simpa using hmem) (by simpa using hj_q)

/-! Post-count accounting of the Thread Consolidator (claim C2): posts that
are members of output threads, plus posts relocated into thread_replies
annotations. -/

/-- Total number of posts that are members of threads of the list
(sum(len(thread.posts))). -/
def threadsPostCount (ts : List Thread) : Nat :=
  (ts.map (fun t => t.posts.length)).sum

/-- Posts held in thread_replies annotations across one thread. -/
def threadRcCount (t : Thread) : Nat :=
  (t.posts.map (fun p => p.thread_replies.length)).sum

/-- Total number of posts held in thread_replies annotations across the
list (sum(len(post.thread_replies))). -/
def threadsRepliesCount (ts : List Thread) : Nat :=
  (ts.map threadRcCount).sum

/-- Favorite reply in a singleton thread, favorite reply to the same root in a
two-post thread alongside an unrelated non-favorite post: consolidation keeps
the singleton thread, moves the second favorite reply into thread_replies, and
removes the two-post thread whole — the unrelated post is dropped. -/
def c2Threads : List Thread :=
  [⟨.single, [samplePost ("at://d") ("fav") ("1") (some ("at://r1")) (some ("at://R"))]⟩,
   ⟨.thread, [samplePost ("at://e") ("fav") ("2") (some ("at://r2")) (some ("at://R")),
              samplePost ("at://y") ("z") ("3") none none]⟩]

/-- C2 counterexample: on c2Threads the consolidator's output references 2
posts (1 member + 1 relocated thread_replies entry) while the input held 3
member posts — the non-favorite post of the removed thread is dropped, so the
claimed conservation equality fails. -/
theorem C2_counterexample :
    threadsPostCount (consolidate_thread_participations [("fav")] (fun _ => none) c2Threads) +
        threadsRepliesCount
          (consolidate_thread_participations [("fav")] (fun _ => none) c2Threads) = 2 ∧
      threadsPostCount c2Threads = 3 ∧ ¬ (2 = 3) :=
  ⟨rfl, rfl, by decide⟩

/-! Generic sum lemmas used by the conservation proof. -/

theorem sum_map_modifyIdx {α : Type} (F : α → Nat) (g : α → α) :
    ∀ (l : List α) (n : Nat) (t : α), l.get? n = some t →
      ((modifyIdx g n l).map F).sum + F t = (l.map F).sum + F (g t) := by
  intro l
  induction l with
  | nil => intro n t h; cases h
  | cons x xs ih =>
    intro n t h
    cases n with
    | zero =>
      obtain rfl : x = t := Option.some.inj h
      simp only [modifyIdx, List.map_cons, List.sum_cons]
      omega
    | succ m =>
      have h' : xs.get? m = some t := h
      have := ih m t h'
      simp only [modifyIdx, List.map_cons, List.sum_cons]
      omega

theorem sum_map_modifyIdx_invariant {α : Type} (F : α → Nat) (g : α → α)
    (hg : ∀ x, F (g x) = F x) :
    ∀ (l : List α) (n : Nat), ((modifyIdx g n l).map F).sum = (l.map F).sum := by
  intro l
  induction l with
  | nil => intro n; cases n <;> rfl
  | cons x xs ih =>
    intro n
    cases n with
    | zero => simp only [modifyIdx, List.map_cons, List.sum_cons, hg x]
    | succ m => simp only [modifyIdx, List.map_cons, List.sum_cons, ih m]

theorem sum_filter_not_split {α : Type} (F : α → Nat) (p : α → Bool) :
    ∀ l : List α,
      ((l.filter p).map F).sum + ((l.filter (fun x => !(p x))).map F).sum
        = (l.map F).sum := by
  intro l
  induction l with
  | nil => rfl
  | cons x xs ih =>
    cases h : p x with
    | true =>
      simp only [List.filter_cons, h, Bool.not_true, if_pos, if_neg, List.map_cons,
        List.sum_cons, Bool.false_eq_true, ite_false, ite_true]
      omega
    | false =>
      simp only [List.filter_cons, h, Bool.not_false, List.map_cons, List.sum_cons,
        Bool.false_eq_true, ite_false, ite_true]
      omega

theorem sum_map_const_one {α : Type} (F : α → Nat) :
    ∀ l : List α, (∀ x ∈ l, F x = 1) → (l.map F).sum = l.length := by
  intro l
  induction l with
  | nil => intro _; rfl
  | cons x xs ih =>
    intro h
    simp only [List.map_cons, List.sum_cons, List.length_cons,
      h x (List.mem_cons_self x xs), ih (fun y hy => h y (List.mem_cons_of_mem x hy))]
    omega

theorem sum_map_eq_zero {α : Type} (F : α → Nat) :
    ∀ l : List α, (∀ x ∈ l, F x = 0) → (l.map F).sum = 0 := by
  intro l
  induction l with
  | nil => intro _; rfl
  | cons x xs ih =>
    intro h
    simp only [List.map_cons, List.sum_cons, h x (List.mem_cons_self x xs),
      ih (fun y hy => h y (List.mem_cons_of_mem x hy))]

theorem sum_enum_snd {α : Type} (F : α → Nat) (l : List α) :
    (l.enum.map (fun it => F it.2)).sum = (l.map F).sum := by
  have h : l.enum.map (fun it => F it.2) = (l.enum.map Prod.snd).map F := by
    rw [List.map_map]
    rfl
  rw [h, List.enum_map_snd]

theorem filter_not_not {α : Type} (l : List α) (q : α → Bool) :
    l.filter (fun x => !(!(q x))) = l.filter q :=
  List.filter_congr (fun x _ => by rw [Bool.not_not])

/-! Apply-pass accounting: storing thread_replies on the first favorite reply
preserves the member-post count, and modifies only the targeted index. -/

theorem setThreadReplies_length (FAV : List String) (ap : List Post) :
    ∀ l : List Post, (setThreadRepliesOnFirstFav FAV ap l).length = l.length := by
  intro l
  induction l with
  | nil => rfl
  | cons p ps ih =>
    unfold setThreadRepliesOnFirstFav
    by_cases hc : (FAV.contains p.author_handle && truthy p.reply_root) = true
    · rw [if_pos hc]
      rfl
    · rw [if_neg hc]
      simp only [List.length_cons, ih]

theorem applyFold_length (FAV : List String) (f : String → Option SingleFetch)
    (uris : List String) :
    ∀ (C : List (Nat × List Post)) (ths : List Thread),
      (C.foldl (applyStep FAV f uris) ths).length = ths.length := by
  intro C
  induction C with
  | nil => intro ths; rfl
  | cons c rest ih =>
    intro ths
    rw [List.foldl_cons, ih]
    unfold applyStep
    exact modifyIdx_length _ _ _

theorem applyFold_pcsum (FAV : List String) (f : String → Option SingleFetch)
    (uris : List String) :
    ∀ (C : List (Nat × List Post)) (ths : List Thread),
      ((C.foldl (applyStep FAV f uris) ths).map (fun t => t.posts.length)).sum
        = (ths.map (fun t => t.posts.length)).sum := by
  intro C
  induction C with
  | nil => intro ths; rfl
  | cons c rest ih =>
    intro ths
    rw [List.foldl_cons, ih]
    unfold applyStep
    exact sum_map_modifyIdx_invariant _ _
      (fun (t : Thread) => setThreadReplies_length FAV _ t.posts) _ _

theorem applyFold_posts_singleton (FAV : List String) (f : String → Option SingleFetch)
    (uris : List String) (C : List (Nat × List Post)) (ths : List Thread)
    (hs : ∀ t ∈ ths, t.posts.length = 1) :
    ∀ t' ∈ C.foldl (applyStep FAV f uris) ths, t'.posts.length = 1 := by
  refine foldl_invariant (applyStep FAV f uris)
    (fun l => ∀ t ∈ l, t.posts.length = 1) C ths hs ?_
  intro l c _ hl t' ht'
  unfold applyStep at ht'
  rcases mem_modifyIdx ht' with h | ⟨a, ha, rfl⟩
  · exact hl t' h
  · simp only [setThreadReplies_length FAV _ a.posts]
    exact hl a ha

theorem applyFold_get_untouched (FAV : List String) (f : String → Option SingleFetch)
    (uris : List String) :
    ∀ (C : List (Nat × List Post)) (ths : List Thread) (k : Nat),
      (∀ c ∈ C, ¬ c.1 = k) →
      (C.foldl (applyStep FAV f uris) ths).get? k = ths.get? k := by
  intro C
  induction C with
  | nil => intro ths k _; rfl
  | cons c rest ih =>
    intro ths k h
    rw [List.foldl_cons,
      ih _ k (fun c' hc' => h c' (List.mem_cons_of_mem _ hc'))]
    unfold applyStep
    rw [modifyIdx_get?, if_neg (fun he => h c (List.mem_cons_self _ _) he.symm)]

theorem setThreadReplies_singleton (FAV : List String) (ap : List Post) (p : Post)
    (hc : (FAV.contains p.author_handle && truthy p.reply_root) = true) :
    setThreadRepliesOnFirstFav FAV ap [p] = [p.withThreadReplies ap] := by
  unfold setThreadRepliesOnFirstFav
  rw [if_pos hc]

theorem applyFold_rcsum (FAV : List String) (f : String → Option SingleFetch)
    (uris : List String) :
    ∀ (C : List (Nat × List Post)) (ths : List Thread),
      ((C.map Prod.fst).Nodup) →
      (∀ c ∈ C, ∃ t p, ths.get? c.1 = some t ∧ t.posts = [p] ∧
        (FAV.contains p.author_handle && truthy p.reply_root) = true ∧
        p.thread_replies = []) →
      ((C.foldl (applyStep FAV f uris) ths).map threadRcCount).sum
        = (ths.map threadRcCount).sum + (C.map (fun c => c.2.length)).sum := by
  intro C
  induction C with
  | nil => intro ths _ _; simp
  | cons c rest ih =>
    intro ths hnd hcond
    rw [List.foldl_cons]
    obtain ⟨t, p, hget, hposts, hpc, hptr⟩ := hcond c (List.mem_cons_self _ _)
    rw [List.map_cons] at hnd
    have hnd' := List.nodup_cons.mp hnd
    have hrest : ∀ c' ∈ rest,
        ∃ t p, (applyStep FAV f uris ths c).get? c'.1 = some t ∧ t.posts = [p] ∧
          (FAV.contains p.author_handle && truthy p.reply_root) = true ∧
          p.thread_replies = [] := by
      intro c' hc'
      obtain ⟨t', p', hg', hrest⟩ := hcond c' (List.mem_cons_of_mem _ hc')
      refine ⟨t', p', ?_, hrest⟩
      unfold applyStep
      rw [modifyIdx_get?, if_neg, hg']
      intro he
      exact hnd'.1 (he ▸ List.mem_map_of_mem Prod.fst hc')
    rw [ih _ hnd'.2 hrest]
    have hstep : ((applyStep FAV f uris ths c).map threadRcCount).sum
        = (ths.map threadRcCount).sum + c.2.length := by
      have hmain := sum_map_modifyIdx threadRcCount
        (fun t => { t with
          posts := setThreadRepliesOnFirstFav FAV
            (c.2.map (annotateReply f uris)) t.posts }) ths c.1 t hget
      have hgt : threadRcCount ({ t with
          posts := setThreadRepliesOnFirstFav FAV
            (c.2.map (annotateReply f uris)) t.posts }) = c.2.length := by
        unfold threadRcCount
        simp only [hposts, setThreadReplies_singleton FAV _ p hpc, List.map_cons,
          List.map_nil, List.sum_cons, List.sum_nil,
          Post.withThreadReplies_thread_replies, List.length_map]
        omega
      have ht0 : threadRcCount t = 0 := by
        unfold threadRcCount
        simp only [hposts, List.map_cons, List.map_nil, List.sum_cons, List.sum_nil, hptr,
          List.length_nil]
        omega
      rw [hgt, ht0] at hmain
      unfold applyStep
      omega
    rw [hstep, List.map_cons, List.sum_cons]
    omega

/-! Scan accounting: the consolidation dict's keys, its value sizes, and the
removal list, characterized against the flat occurrence list. -/

theorem addEntryNat_keys (k : Nat) (es : List Post) :
    ∀ m : List (Nat × List Post), ∀ k' ∈ (addEntryNat m k es).map Prod.fst,
      k' ∈ m.map Prod.fst ∨ k' = k := by
  intro m
  induction m with
  | nil =>
    intro k' h
    simp only [addEntryNat, List.map_cons, List.map_nil] at h
    exact Or.inr (List.mem_singleton.mp h)
  | cons g rest ih =>
    intro k' h
    obtain ⟨k0, old⟩ := g
    unfold addEntryNat at h
    by_cases hk : (k0 == k) = true
    · rw [if_pos hk] at h
      simp only [List.map_cons] at h ⊢
      rcases List.mem_cons.mp h with rfl | h'
      · exact Or.inl (List.mem_cons_self _ _)
      · exact Or.inl (List.mem_cons_of_mem _ h')
    · rw [if_neg hk] at h
      simp only [List.map_cons] at h ⊢
      rcases List.mem_cons.mp h with rfl | h'
      · exact Or.inl (List.mem_cons_self _ _)
      · rcases ih k' h' with h'' | rfl
        · exact Or.inl (List.mem_cons_of_mem _ h'')
        · exact Or.inr rfl

theorem addEntryNat_keys_nodup (k : Nat) (es : List Post) :
    ∀ m : List (Nat × List Post), (m.map Prod.fst).Nodup →
      ((addEntryNat m k es).map Prod.fst).Nodup := by
  intro m
  induction m with
  | nil =>
    intro _
    simp [addEntryNat]
  | cons g rest ih =>
    intro hnd
    obtain ⟨k0, old⟩ := g
    rw [List.map_cons] at hnd
    have hnd' := List.nodup_cons.mp hnd
    unfold addEntryNat
    by_cases hk : (k0 == k) = true
    · rw [if_pos hk]
      exact hnd
    · rw [if_neg hk]
      rw [List.map_cons]
      refine List.nodup_cons.mpr ⟨?_, ih hnd'.2⟩
      intro hmem
      rcases addEntryNat_keys k es rest k0 hmem with h' | rfl
      · exact hnd'.1 h'
      · exact hk (by simp)

theorem addEntryNat_valsum (k : Nat) (es : List Post) :
    ∀ m : List (Nat × List Post),
      ((addEntryNat m k es).map (fun c => c.2.length)).sum
        = (m.map (fun c => c.2.length)).sum + es.length := by
  intro m
  induction m with
  | nil => simp [addEntryNat]
  | cons g rest ih =>
    obtain ⟨k0, old⟩ := g
    unfold addEntryNat
    by_cases hk : (k0 == k) = true
    · rw [if_pos hk]
      simp only [List.map_cons, List.sum_cons, List.length_append]
      omega
    · rw [if_neg hk]
      simp only [List.map_cons, List.sum_cons, ih]
      omega

/-- Case analysis of one scan iteration: either nothing happens, or the sorted
group splits as first :: tail, the non-first-index entries are appended to the
removal list, and their posts are recorded under the first entry's index. -/
theorem scanStep_spec (st : List Nat × List (Nat × List Post))
    (g : String × List (Nat × Post)) :
    scanStep st g = st ∨
      ∃ first tail,
        sortOn (fun (e : Nat × Post) => e.2.created_at.getD "") g.2 = first :: tail ∧
        2 ≤ g.2.length ∧
        ¬ ((tail.filter (fun e => !(e.1 == first.1))).isEmpty = true) ∧
        scanStep st g =
          (st.1 ++ (tail.filter (fun e => !(e.1 == first.1))).map (fun e => e.1),
            addEntryNat st.2 first.1
              ((tail.filter (fun e => !(e.1 == first.1))).map (fun e => e.2))) := by
  unfold scanStep
  by_cases hlen : g.2.length ≤ 1
  · rw [if_pos hlen]
    exact Or.inl rfl
  · rw [if_neg hlen]
    cases hs : sortOn (fun (e : Nat × Post) => e.2.created_at.getD "") g.2 with
    | nil => exact Or.inl rfl
    | cons first tail =>
      simp only []
      by_cases hemp : ((tail.filter (fun e => !(e.1 == first.1))).isEmpty) = true
      · rw [if_pos hemp]
        left
        rw [List.isEmpty_iff] at hemp
        rw [hemp]
        simp
      · rw [if_neg hemp]
        exact Or.inr ⟨first, tail, rfl, by omega, hemp, rfl⟩

/-- Every removal-list element and every consolidation key of the scan's
result originates as the thread index of some entry of some group. -/
theorem scanFold_origin :
    ∀ (groups : List (String × List (Nat × Post))) (st : List Nat × List (Nat × List Post)),
      (∀ x ∈ (groups.foldl scanStep st).1,
        x ∈ st.1 ∨ ∃ g ∈ groups, ∃ e ∈ g.2, e.1 = x) ∧
      (∀ k ∈ (groups.foldl scanStep st).2.map Prod.fst,
        k ∈ st.2.map Prod.fst ∨ ∃ g ∈ groups, ∃ e ∈ g.2, e.1 = k) := by
  intro groups
  induction groups with
  | nil => intro st; exact ⟨fun x hx => Or.inl hx, fun k hk => Or.inl hk⟩
  | cons g rest ih =>
    intro st
    rw [List.foldl_cons]
    constructor
    · intro x hx
      rcases (ih (scanStep st g)).1 x hx with hx' | ⟨g', hg', he⟩
      · rcases scanStep_spec st g with heq | ⟨first, tail, hs, _, _, heq⟩
        · rw [heq] at hx'
          exact Or.inl hx'
        · rw [heq] at hx'
          rcases List.mem_append.mp hx' with h | h
          · exact Or.inl h
          · obtain ⟨e, he, rfl⟩ := List.mem_map.mp h
            have hetail : e ∈ tail := (List.mem_filter.mp he).1
            have : e ∈ g.2 := (sortOn_mem _ _ e).mp (by
              rw [hs]
              exact List.mem_cons_of_mem _ hetail)
            exact Or.inr ⟨g, List.mem_cons_self _ _, e, this, rfl⟩
      · exact Or.inr ⟨g', List.mem_cons_of_mem _ hg', he⟩
    · intro k hk
      rcases (ih (scanStep st g)).2 k hk with hk' | ⟨g', hg', he⟩
      · rcases scanStep_spec st g with heq | ⟨first, tail, hs, _, _, heq⟩
        · rw [heq] at hk'
          exact Or.inl hk'
        · rw [heq] at hk'
          rcases addEntryNat_keys _ _ st.2 k hk' with h | rfl
          · exact Or.inl h
          · have : first ∈ g.2 := (sortOn_mem _ _ first).mp (by
              rw [hs]
              exact List.mem_cons_self _ _)
            exact Or.inr ⟨g, List.mem_cons_self _ _, first, this, rfl⟩
      · exact Or.inr ⟨g', List.mem_cons_of_mem _ hg', he⟩

theorem scanFold_keys_nodup :
    ∀ (groups : List (String × List (Nat × Post))) (st : List Nat × List (Nat × List Post)),
      (st.2.map Prod.fst).Nodup → ((groups.foldl scanStep st).2.map Prod.fst).Nodup := by
  intro groups
  induction groups with
  | nil => intro st h; exact h
  | cons g rest ih =>
    intro st h
    rw [List.foldl_cons]
    refine ih (scanStep st g) ?_
    rcases scanStep_spec st g with heq | ⟨first, tail, _, _, _, heq⟩
    · rw [heq]; exact h
    · rw [heq]
      exact addEntryNat_keys_nodup _ _ st.2 h

/-- Balance of the scan: entries appended to the removal list and posts
recorded in consolidations grow in lockstep. -/
theorem scanFold_balance :
    ∀ (groups : List (String × List (Nat × Post))) (st : List Nat × List (Nat × List Post)),
      (groups.foldl scanStep st).1.length + (st.2.map (fun c => c.2.length)).sum
        = st.1.length + ((groups.foldl scanStep st).2.map (fun c => c.2.length)).sum := by
  intro groups
  induction groups with
  | nil => intro st; rw [List.foldl_nil]
  | cons g rest ih =>
    intro st
    rw [List.foldl_cons]
    have hrest := ih (scanStep st g)
    rcases scanStep_spec st g with heq | ⟨first, tail, _, _, _, heq⟩
    · rw [heq]
      exact ih st
    · have h1 : (scanStep st g).1
          = st.1 ++ (tail.filter (fun e => !(e.1 == first.1))).map (fun e => e.1) := by
        rw [heq]
      have h2 : (scanStep st g).2
          = addEntryNat st.2 first.1
              ((tail.filter (fun e => !(e.1 == first.1))).map (fun e => e.2)) := by
        rw [heq]
      rw [h1, h2] at hrest
      simp only [List.length_append, List.length_map] at hrest
      rw [addEntryNat_valsum first.1 _ st.2, List.length_map] at hrest
      omega

/-- Thread indices of the flat occurrence entries of the grouping dict. -/
def occIdxs (groups : List (String × List (Nat × Post))) : List Nat :=
  (flatEntries groups).map (fun kv => kv.2.1)

theorem occIdxs_cons (g : String × List (Nat × Post))
    (rest : List (String × List (Nat × Post))) :
    occIdxs (g :: rest) = g.2.map (fun e => e.1) ++ occIdxs rest := by
  unfold occIdxs flatEntries
  rw [List.flatMap_cons, List.map_append, List.map_map]
  rfl

theorem nodup_of_length_le_one {α : Type} {l : List α} (h : l.length ≤ 1) : l.Nodup := by
  cases l with
  | nil => exact List.nodup_nil
  | cons x xs =>
    cases xs with
    | nil => exact List.nodup_singleton x
    | cons y ys => simp at h

theorem subperm_nodup {α : Type} {l₁ l₂ : List α} (h : List.Subperm l₁ l₂)
    (h₂ : l₂.Nodup) : l₁.Nodup := by
  obtain ⟨m, pm, sm⟩ := h
  exact pm.nodup (h₂.sublist sm)

theorem nodup_append_subperm_mid {α : Type} {s m g r : List α} (hm : List.Subperm m g)
    (h : (s ++ (g ++ r)).Nodup) : ((s ++ m) ++ r).Nodup := by
  obtain ⟨m', pm, sm⟩ := hm
  have h' : ((s ++ g) ++ r).Nodup := by
    rw [List.append_assoc]
    exact h
  exact subperm_nodup
    ⟨(s ++ m') ++ r, (pm.append_left s).append_right r,
      (sm.append_left s).append_right r⟩ h'

/-- Over an all-singleton thread list, distinct favorite reply occurrences come
from distinct threads: the occurrence thread indices are pairwise distinct and
bounded below by the enumeration start. -/
theorem favOcc_enumFrom_idx_facts (FAV : List String) :
    ∀ (ts : List Thread) (n : Nat), (∀ t ∈ ts, t.posts.length = 1) →
      (((ts.enumFrom n).flatMap (fun it =>
        (it.2.posts.filter (fun p => FAV.contains p.author_handle && truthy p.reply_root)).map
          (fun p => (p.reply_root.getD "", (it.1, p))))).map (fun kv => kv.2.1)).Nodup ∧
      ∀ x ∈ ((ts.enumFrom n).flatMap (fun it =>
        (it.2.posts.filter (fun p => FAV.contains p.author_handle && truthy p.reply_root)).map
          (fun p => (p.reply_root.getD "", (it.1, p))))).map (fun kv => kv.2.1), n ≤ x := by
  intro ts
  induction ts with
  | nil =>
    intro n _
    constructor
    · simp [List.enumFrom_nil]
    · simp [List.enumFrom_nil]
  | cons t ts' ih =>
    intro n hs
    have hlen1 : t.posts.length = 1 := hs t (List.mem_cons_self _ _)
    have ihr := ih (n + 1) (fun u hu => hs u (List.mem_cons_of_mem _ hu))
    rw [List.enumFrom_cons, List.flatMap_cons, List.map_append]
    have hhead : ∀ x ∈ ((t.posts.filter
        (fun p => FAV.contains p.author_handle && truthy p.reply_root)).map
          (fun p => (p.reply_root.getD "", (n, p)))).map (fun kv => kv.2.1), x = n := by
      intro x hx
      obtain ⟨kv, hkv, rfl⟩ := List.mem_map.mp hx
      obtain ⟨p, _, rfl⟩ := List.mem_map.mp hkv
      rfl
    have hheadlen : (((t.posts.filter
        (fun p => FAV.contains p.author_handle && truthy p.reply_root)).map
          (fun p => (p.reply_root.getD "", (n, p)))).map (fun kv => kv.2.1)).length ≤ 1 := by
      rw [List.length_map, List.length_map]
      calc (t.posts.filter _).length ≤ t.posts.length := List.length_filter_le _ _
        _ = 1 := hlen1
    constructor
    · refine List.Nodup.append (nodup_of_length_le_one hheadlen) ihr.1 ?_
      intro x hx hx'
      have h1 := hhead x hx
      have h2 := ihr.2 x hx'
      omega
    · intro x hx
      rcases List.mem_append.mp hx with hx | hx
      · rw [hhead x hx]
      · have := ihr.2 x hx
        omega

theorem favRootOccurrences_idx_nodup (FAV : List String) (ts : List Thread)
    (hs : ∀ t ∈ ts, t.posts.length = 1) :
    ((favRootOccurrences FAV ts).map (fun kv => kv.2.1)).Nodup :=
  (favOcc_enumFrom_idx_facts FAV ts 0 hs).1

theorem occIdxs_nodup (FAV : List String) (ts : List Thread)
    (hs : ∀ t ∈ ts, t.posts.length = 1) :
    (occIdxs (rootsToThreads FAV ts)).Nodup := by
  have hperm :=
    (rootsToThreads_flatEntries_perm FAV ts).map (fun (kv : String × Nat × Post) => kv.2.1)
  exact hperm.symm.nodup (favRootOccurrences_idx_nodup FAV ts hs)

/-- Core scan invariant: starting from a state whose removal list together
with the remaining occurrence indices is duplicate-free and whose
consolidation keys avoid both, the final removal list is duplicate-free and
disjoint from the final consolidation keys. -/
theorem scanFold_inv :
    ∀ (groups : List (String × List (Nat × Post))) (st : List Nat × List (Nat × List Post)),
      (st.1 ++ occIdxs groups).Nodup →
      (∀ k ∈ st.2.map Prod.fst, k ∉ st.1 ∧ k ∉ occIdxs groups) →
      ((groups.foldl scanStep st).1.Nodup ∧
        ∀ k ∈ (groups.foldl scanStep st).2.map Prod.fst,
          k ∉ (groups.foldl scanStep st).1) := by
  intro groups
  induction groups with
  | nil =>
    intro st h1 h2
    rw [List.foldl_nil]
    constructor
    · rw [show occIdxs [] = [] from rfl, List.append_nil] at h1
      exact h1
    · intro k hk
      exact (h2 k hk).1
  | cons g rest ih =>
    intro st h1 h2
    rw [List.foldl_cons]
    rcases scanStep_spec st g with heq | ⟨first, tail, hs, hlen2, hemp, heq⟩
    · rw [heq]
      apply ih st
      · rw [occIdxs_cons] at h1
        exact h1.sublist
          ((List.sublist_append_right (g.2.map (fun e => e.1)) (occIdxs rest)).append_left st.1)
      · intro k hk
        obtain ⟨hk1, hk2⟩ := h2 k hk
        rw [occIdxs_cons] at hk2
        exact ⟨hk1, fun hx => hk2 (List.mem_append_right _ hx)⟩
    · have hsub : List.Subperm
          ((tail.filter (fun e => !(e.1 == first.1))).map (fun e => e.1))
          (g.2.map (fun e => e.1)) := by
        have h1s := (List.filter_sublist tail :
            List.Sublist (tail.filter (fun e => !(e.1 == first.1))) tail).trans
          (List.sublist_cons_self first tail)
        have hp : List.Perm ((first :: tail).map (fun (e : Nat × Post) => e.1))
            (g.2.map (fun e => e.1)) := by
          have hp0 := sortOn_perm (fun (e : Nat × Post) => e.2.created_at.getD "") g.2
          rw [hs] at hp0
          exact hp0.map _
        exact ((h1s.map (fun e => e.1)).subperm).trans hp.subperm
      have hfg : first ∈ g.2 := (sortOn_mem _ _ first).mp (by
        rw [hs]
        exact List.mem_cons_self _ _)
      have hfidx : first.1 ∈ g.2.map (fun e => e.1) :=
        List.mem_map.mpr ⟨first, hfg, rfl⟩
      have h1' : ((st.1 ++ (tail.filter (fun e => !(e.1 == first.1))).map (fun e => e.1))
          ++ occIdxs rest).Nodup := by
        rw [occIdxs_cons] at h1
        exact nodup_append_subperm_mid hsub h1
      have hkeynew : ∀ k ∈ (addEntryNat st.2 first.1
            ((tail.filter (fun e => !(e.1 == first.1))).map (fun e => e.2))).map Prod.fst,
          k ∉ (st.1 ++ (tail.filter (fun e => !(e.1 == first.1))).map (fun e => e.1)) ∧
            k ∉ occIdxs rest := by
        intro k hk
        rcases addEntryNat_keys _ _ st.2 k hk with hk' | rfl
        · obtain ⟨ha, hb⟩ := h2 k hk'
          rw [occIdxs_cons] at hb
          constructor
          · intro hmem
            rcases List.mem_append.mp hmem with hmem | hmem
            · exact ha hmem
            · exact hb (List.mem_append_left _ (hsub.subset hmem))
          · exact fun hx => hb (List.mem_append_right _ hx)
        · rw [occIdxs_cons] at h1
          rw [List.nodup_append] at h1
          have hgr := h1.2.1
          rw [List.nodup_append] at hgr
          constructor
          · intro hmem
            rcases List.mem_append.mp hmem with hmem | hmem
            · exact h1.2.2 hmem (List.mem_append_left _ hfidx)
            · obtain ⟨e, he, hee⟩ := List.mem_map.mp hmem
              have hcond := (List.mem_filter.mp he).2
              simp [hee] at hcond
          · exact fun hx => hgr.2.2 hfidx hx
      have hres := ih (st.1 ++ (tail.filter (fun e => !(e.1 == first.1))).map (fun e => e.1),
        addEntryNat st.2 first.1
          ((tail.filter (fun e => !(e.1 == first.1))).map (fun e => e.2))) h1' hkeynew
      rw [heq]
      exact hres

theorem eq_singleton_of_length_one {α : Type} {l : List α} {a : α}
    (h : l.length = 1) (ha : a ∈ l) : l = [a] := by
  cases l with
  | nil => cases ha
  | cons x xs =>
    cases xs with
    | nil =>
      rcases List.mem_singleton.mp ha with rfl
      rfl
    | cons y ys => simp at h

/-- A duplicate-free index list within range selects exactly its own number of
enum entries. -/
theorem filter_enum_contains_length {α : Type} (l : List α) (T : List Nat)
    (hnd : T.Nodup) (hlt : ∀ x ∈ T, x < l.length) :
    (l.enum.filter (fun it => T.contains it.1)).length = T.length := by
  have hFnd : ((l.enum.filter (fun it => T.contains it.1)).map Prod.fst).Nodup :=
    (List.nodup_enum_map_fst l).sublist ((List.filter_sublist l.enum).map Prod.fst)
  have hmem : ∀ x, x ∈ (l.enum.filter (fun it => T.contains it.1)).map Prod.fst ↔ x ∈ T := by
    intro x
    constructor
    · intro hx
      obtain ⟨it, hit, rfl⟩ := List.mem_map.mp hx
      have hq := (List.mem_filter.mp hit).2
      simpa using hq
    · intro hx
      obtain ⟨t, ht⟩ : ∃ t, l.get? x = some t :=
        ⟨l.get ⟨x, hlt x hx⟩, List.get?_eq_get (hlt x hx)⟩
      have henum : (x, t) ∈ l.enum := List.mem_enum_iff_get?.mpr (by simpa using ht)
      exact List.mem_map.mpr ⟨(x, t), List.mem_filter.mpr ⟨henum, by simpa using hx⟩, rfl⟩
  have hperm := (List.perm_ext_iff_of_nodup hFnd hnd).mpr hmem
  have hlen := hperm.length_eq
  rw [List.length_map] at hlen
  exact hlen

/-- Core conservation argument: dropping the removed threads from the applied
list loses exactly the posts that the consolidations relocated into
thread_replies, provided the input threads are singletons without prior
thread_replies and the scan facts hold (removal list duplicate-free, in range,
disjoint from consolidation keys; consolidation keys duplicate-free, pointing
at favorite singleton reply threads; relocated posts as many as removals). -/
theorem conservation_core (FAV : List String) (f : String → Option SingleFetch)
    (uris : List String) (ts : List Thread) (T : List Nat) (C : List (Nat × List Post))
    (hs : ∀ t ∈ ts, t.posts.length = 1)
    (h0 : ∀ t ∈ ts, ∀ p ∈ t.posts, p.thread_replies = [])
    (hTnd : T.Nodup)
    (hTlt : ∀ x ∈ T, x < ts.length)
    (hCkeys : (C.map Prod.fst).Nodup)
    (hCcond : ∀ c ∈ C, ∃ t p, ts.get? c.1 = some t ∧ t.posts = [p] ∧
        (FAV.contains p.author_handle && truthy p.reply_root) = true ∧
        p.thread_replies = [])
    (hdisj : ∀ k ∈ C.map Prod.fst, k ∉ T)
    (hbal : (C.map (fun c => c.2.length)).sum = T.length) :
    threadsPostCount
        (((C.foldl (applyStep FAV f uris) ts).enum.filter
          (fun it => !(T.contains it.1))).map (fun it => it.2)) +
      threadsRepliesCount
        (((C.foldl (applyStep FAV f uris) ts).enum.filter
          (fun it => !(T.contains it.1))).map (fun it => it.2))
      = threadsPostCount ts := by
  have h_applen : (C.foldl (applyStep FAV f uris) ts).length = ts.length :=
    applyFold_length FAV f uris C ts
  have h_pcapp : ((C.foldl (applyStep FAV f uris) ts).map (fun t => t.posts.length)).sum
      = threadsPostCount ts := applyFold_pcsum FAV f uris C ts
  have h_rcapp : ((C.foldl (applyStep FAV f uris) ts).map threadRcCount).sum = T.length := by
    rw [applyFold_rcsum FAV f uris C ts hCkeys hCcond, hbal]
    have hz : (ts.map threadRcCount).sum = 0 :=
      sum_map_eq_zero threadRcCount ts (fun t ht => by
        unfold threadRcCount
        exact sum_map_eq_zero _ t.posts (fun p hp => by rw [h0 t ht p hp]; rfl))
    rw [hz]
    omega
  have h_single_app : ∀ t' ∈ C.foldl (applyStep FAV f uris) ts, t'.posts.length = 1 :=
    applyFold_posts_singleton FAV f uris C ts hs
  have hout_pc : threadsPostCount
        (((C.foldl (applyStep FAV f uris) ts).enum.filter
          (fun it => !(T.contains it.1))).map (fun it => it.2))
      = (((C.foldl (applyStep FAV f uris) ts).enum.filter
          (fun it => !(T.contains it.1))).map (fun it => it.2.posts.length)).sum := by
    unfold threadsPostCount
    rw [List.map_map]
    rfl
  have hout_rc : threadsRepliesCount
        (((C.foldl (applyStep FAV f uris) ts).enum.filter
          (fun it => !(T.contains it.1))).map (fun it => it.2))
      = (((C.foldl (applyStep FAV f uris) ts).enum.filter
          (fun it => !(T.contains it.1))).map (fun it => threadRcCount it.2)).sum := by
    unfold threadsRepliesCount
    rw [List.map_map]
    rfl
  have hsplit_pc := sum_filter_not_split (fun it => it.2.posts.length)
    (fun it => !(T.contains it.1)) (C.foldl (applyStep FAV f uris) ts).enum
  have hsplit_rc := sum_filter_not_split (fun it => threadRcCount it.2)
    (fun it => !(T.contains it.1)) (C.foldl (applyStep FAV f uris) ts).enum
  rw [filter_not_not ((C.foldl (applyStep FAV f uris) ts).enum)
    (fun it => T.contains it.1)] at hsplit_pc hsplit_rc
  rw [sum_enum_snd (fun t => t.posts.length) (C.foldl (applyStep FAV f uris) ts)]
    at hsplit_pc
  rw [sum_enum_snd threadRcCount (C.foldl (applyStep FAV f uris) ts)] at hsplit_rc
  have hremoved_pc : (((C.foldl (applyStep FAV f uris) ts).enum.filter
        (fun it => T.contains it.1)).map (fun it => it.2.posts.length)).sum
      = ((C.foldl (applyStep FAV f uris) ts).enum.filter
        (fun it => T.contains it.1)).length :=
    sum_map_const_one _ _ (fun it hit => by
      have hmem : it.2 ∈ C.foldl (applyStep FAV f uris) ts := by
        have h := (List.mem_filter.mp hit).1
        have hg := List.mem_enum_iff_get?.mp h
        exact List.get?_mem (by simpa using hg)
      exact h_single_app it.2 hmem)
  have hRlen : ((C.foldl (applyStep FAV f uris) ts).enum.filter
        (fun it => T.contains it.1)).length = T.length :=
    filter_enum_contains_length _ T hTnd (fun x hx => by
      rw [h_applen]
      exact hTlt x hx)
  have hremoved_rc : (((C.foldl (applyStep FAV f uris) ts).enum.filter
        (fun it => T.contains it.1)).map (fun it => threadRcCount it.2)).sum = 0 :=
    sum_map_eq_zero _ _ (fun it hit => by
      obtain ⟨henum, hcont⟩ := List.mem_filter.mp hit
      have hinT : it.1 ∈ T := by simpa using hcont
      have huntouched : (C.foldl (applyStep FAV f uris) ts).get? it.1 = ts.get? it.1 :=
        applyFold_get_untouched FAV f uris C ts it.1
          (fun c hc he => hdisj c.1 (List.mem_map_of_mem Prod.fst hc) (he ▸ hinT))
      have hget : (C.foldl (applyStep FAV f uris) ts).get? it.1 = some it.2 := by
        simpa using List.mem_enum_iff_get?.mp henum
      have hts : ts.get? it.1 = some it.2 := by
        rw [← huntouched]
        exact hget
      have hm : it.2 ∈ ts := List.get?_mem hts
      unfold threadRcCount
      exact sum_map_eq_zero _ it.2.posts (fun p hp => by rw [h0 it.2 hm p hp]; rfl))
  rw [hout_pc, hout_rc]
  rw [hremoved_pc, hRlen, h_pcapp] at hsplit_pc
  rw [hremoved_rc, h_rcapp] at hsplit_rc
  omega

/-- A thread index reached by the scan (removal entry or consolidation key)
is the index of a thread holding a favorite reply post. -/
theorem scan_key_origin_occ (FAV : List String) (ts : List Thread) {k : Nat}
    (h : ∃ g ∈ rootsToThreads FAV ts, ∃ e ∈ g.2, e.1 = k) :
    ∃ t p, ts.get? k = some t ∧ p ∈ t.posts ∧
      (FAV.contains p.author_handle && truthy p.reply_root) = true := by
  obtain ⟨g, hg, e, he, rfl⟩ := h
  have hflat : (g.1, e) ∈ flatEntries (rootsToThreads FAV ts) :=
    mem_flatEntries.mpr ⟨g.2, hg, he⟩
  have hocc := (rootsToThreads_flatEntries_perm FAV ts).mem_iff.mp hflat
  obtain ⟨t, hget, hp, hcond, _⟩ := mem_favRootOccurrences.mp hocc
  exact ⟨t, e.2, hget, hp, hcond⟩

/-- C2 (amended): when every input thread is a singleton with no prior
thread_replies annotation — as for a feed batch without in-batch threads —
the Thread Consolidator conserves the referenced post count: member posts of
the output plus posts relocated into thread_replies equal the input's member
posts. (The unqualified claim is false: C2_counterexample drops the
non-favorite post of a removed multi-post thread.) -/
theorem C2_conservation_for_singleton_inputs (FAV : List String)
    (f : String → Option SingleFetch) (ts : List Thread)
    (hs : ∀ t ∈ ts, t.posts.length = 1)
    (h0 : ∀ t ∈ ts, ∀ p ∈ t.posts, p.thread_replies = []) :
    threadsPostCount (consolidate_thread_participations FAV f ts) +
        threadsRepliesCount (consolidate_thread_participations FAV f ts) =
      threadsPostCount ts := by
  have hkeysnodup : ((consolidationScan (rootsToThreads FAV ts)).2.map Prod.fst).Nodup :=
    scanFold_keys_nodup (rootsToThreads FAV ts) ([], []) List.nodup_nil
  have hCcond : ∀ c ∈ (consolidationScan (rootsToThreads FAV ts)).2,
      ∃ t p, ts.get? c.1 = some t ∧ t.posts = [p] ∧
        (FAV.contains p.author_handle && truthy p.reply_root) = true ∧
        p.thread_replies = [] := by
    intro c hc
    have hk : c.1 ∈ (consolidationScan (rootsToThreads FAV ts)).2.map Prod.fst :=
      List.mem_map_of_mem Prod.fst hc
    rcases (scanFold_origin (rootsToThreads FAV ts) ([], [])).2 c.1 hk with h | h
    · cases h
    · obtain ⟨t, p, hget, hp, hcond⟩ := scan_key_origin_occ FAV ts h
      have hlen1 : t.posts.length = 1 := hs t (List.get?_mem hget)
      exact ⟨t, p, hget, eq_singleton_of_length_one hlen1 hp, hcond,
        h0 t (List.get?_mem hget) p hp⟩
  have hbal : ((consolidationScan (rootsToThreads FAV ts)).2.map (fun c => c.2.length)).sum
      = (consolidationScan (rootsToThreads FAV ts)).1.length := by
    have hb := scanFold_balance (rootsToThreads FAV ts) ([], [])
    simp only [List.map_nil, List.sum_nil, List.length_nil] at hb
    unfold consolidationScan
    omega
  have hTfacts := scanFold_inv (rootsToThreads FAV ts) ([], [])
    (occIdxs_nodup FAV ts hs) (fun k hk => (List.not_mem_nil k hk).elim)
  have hTlt : ∀ x ∈ (consolidationScan (rootsToThreads FAV ts)).1, x < ts.length := by
    intro x hx
    rcases (scanFold_origin (rootsToThreads FAV ts) ([], [])).1 x hx with h | h
    · cases h
    · obtain ⟨t, p, hget, _, _⟩ := scan_key_origin_occ FAV ts h
      exact (List.get?_eq_some.mp hget).1
  by_cases hscan : ((consolidationScan (rootsToThreads FAV ts)).1.isEmpty) = true
  · have hout : consolidate_thread_participations FAV f ts =
        (consolidationScan (rootsToThreads FAV ts)).2.foldl
          (applyStep FAV f (ts.flatMap (fun t => t.posts.map Post.uri))) ts := by
      unfold consolidate_thread_participations
      rw [if_pos hscan]
    rw [hout]
    have hT0 : (consolidationScan (rootsToThreads FAV ts)).1 = [] :=
      List.isEmpty_iff.mp hscan
    have hbal0 : ((consolidationScan (rootsToThreads FAV ts)).2.map
        (fun c => c.2.length)).sum = 0 := by
      rw [hbal, hT0]
      rfl
    have hpc := applyFold_pcsum FAV f (ts.flatMap (fun t => t.posts.map Post.uri))
      (consolidationScan (rootsToThreads FAV ts)).2 ts
    have hrc := applyFold_rcsum FAV f (ts.flatMap (fun t => t.posts.map Post.uri))
      (consolidationScan (rootsToThreads FAV ts)).2 ts hkeysnodup hCcond
    have hz : (ts.map threadRcCount).sum = 0 :=
      sum_map_eq_zero threadRcCount ts (fun t ht => by
        unfold threadRcCount
        exact sum_map_eq_zero _ t.posts (fun p hp => by rw [h0 t ht p hp]; rfl))
    unfold threadsPostCount threadsRepliesCount
    rw [hpc, hrc, hz, hbal0]
    omega
  · have hout : consolidate_thread_participations FAV f ts =
        ((((consolidationScan (rootsToThreads FAV ts)).2.foldl
            (applyStep FAV f (ts.flatMap (fun t => t.posts.map Post.uri)))
            ts).enum.filter
          (fun it => !((consolidationScan (rootsToThreads FAV ts)).1.contains
            it.1))).map (fun it => it.2)) := by
      unfold consolidate_thread_participations
      rw [if_neg hscan]
    rw [hout]
    exact conservation_core FAV f (ts.flatMap (fun t => t.posts.map Post.uri)) ts
      (consolidationScan (rootsToThreads FAV ts)).1
      (consolidationScan (rootsToThreads FAV ts)).2
      hs h0 hTfacts.1 hTlt hkeysnodup hCcond hTfacts.2 hbal

/-- Two favorite singleton replies to the same external root: consolidation
merges them into one thread carrying one thread_replies entry. -/
def c2wThreads : List Thread :=
  [⟨.single, [samplePost ("at://d") ("fav") ("1") (some ("at://r1")) (some ("at://R"))]⟩,
   ⟨.single, [samplePost ("at://e") ("fav") ("2") (some ("at://r2")) (some ("at://R"))]⟩]

/-- Witness for the amended C2 at a concrete input of two favorite singleton
replies to one root: 1 member post + 1 relocated reply = 2 input posts. -/
theorem C2_conservation_witness :
    threadsPostCount (consolidate_thread_participations [("fav")] (fun _ => none) c2wThreads) +
        threadsRepliesCount
          (consolidate_thread_participations [("fav")] (fun _ => none) c2wThreads) =
      threadsPostCount c2wThreads :=
  C2_conservation_for_singleton_inputs [("fav")] (fun _ => none) c2wThreads
    (by
      intro t ht
      rcases List.mem_cons.mp ht with rfl | ht
      · rfl
      · rcases List.mem_singleton.mp ht with rfl
        rfl)
    (by
      intro t ht p hp
      rcases List.mem_cons.mp ht with rfl | ht
      · rcases List.mem_singleton.mp hp with rfl
        rfl
      · rcases List.mem_singleton.mp ht with rfl
        rcases List.mem_singleton.mp hp with rfl
        rfl)

/-- C4: the Thread Consolidator is idempotent — applying
consolidate_thread_participations to its own output returns that output
unchanged, for every favorites list, parent-fetch collaborator, and thread
list. -/
theorem C4_consolidator_idempotent (FAV : List String)
    (f : String → Option SingleFetch) (ts : List Thread) :
    consolidate_thread_participations FAV f
        (consolidate_thread_participations FAV f ts) =
      consolidate_thread_participations FAV f ts :=
  consolidate_of_sameGroups FAV f _
    (sameGroups_of_sameIdx FAV _ (consolidate_sameIdx FAV f ts))

end BlueskyTimes
